import Mathlib

/-!
# Verification of the GSQL rule table and its tokenizer engine

The repository ships one source file, `pygments/lexers/gsql.py`: the GSQL
rule table for the Pygments regex tokenizer.  The engine that consumes the
table (`RegexLexer.get_tokens_unprocessed`, `include`, `bygroups`, `using`,
`words`) lives in `pygments/lexer.py`, which is not part of the shipped
sources; those parts are modelled from the specification (they are marked
`Modelled from the spec:` below).  The rule table itself — every regex,
token kind and state — is translated directly from `gsql.py`.

The table sets `flags = re.MULTILINE | re.IGNORECASE`.  `re.MULTILINE`
only affects the anchors `^`/`$`, which the table never uses.
`re.IGNORECASE` is folded into the embedding: literals are compared up to
ASCII case and character classes are written case-folded.  The input is a
`List Char`; matching works on ASCII code points via `Char.toNat`.
-/

namespace GsqlSpec

set_option maxRecDepth 40000

abbrev Input := List Char

/-- ASCII lower-casing on code points: `A`–`Z` (65–90) map to 97–122. -/
def lowN (n : Nat) : Nat := if 65 ≤ n ∧ n ≤ 90 then n + 32 else n

/-- Case-insensitive character comparison (the table sets `re.IGNORECASE`). -/
def ciEqChar (a b : Char) : Bool := lowN a.toNat == lowN b.toNat

/-- Python regex `\w` (ASCII part): letters, digits, underscore. -/
def pyWordN (n : Nat) : Bool :=
  (48 ≤ n && n ≤ 57) || (65 ≤ n && n ≤ 90) || (97 ≤ n && n ≤ 122) || n == 95

def pyWord (c : Char) : Bool := pyWordN c.toNat

/-- Python regex `\s`: space, tab, newline, carriage return, vertical tab, form feed. -/
def pySpace (c : Char) : Bool :=
  c == ' ' || c == '\t' || c == '\n' || c == '\r' || c.toNat == 11 || c.toNat == 12

/-- Python regex `\d` (ASCII). -/
def pyDigit (c : Char) : Bool := 48 ≤ c.toNat && c.toNat ≤ 57

/-- The class `[a-z]` under `re.IGNORECASE`: any ASCII letter. -/
def letterAZ (c : Char) : Bool := 97 ≤ lowN c.toNat && lowN c.toNat ≤ 122

/-- `.` when `re.DOTALL` is not set: any character except a newline. -/
def dotNoNL (c : Char) : Bool := !(c == '\n')

/-- Group captures: (group number, start offset, end offset). -/
abbrev Caps := List (Nat × Nat × Nat)

/-- Modelled from the spec: the Pattern Matcher's regular expressions
(`pygments` compiles Python `re` patterns; neither is under `src/`).
Constructors cover exactly the constructs appearing in the GSQL table:
character classes (`pred`), case-insensitive literals (`lit`),
concatenation, alternation (committing to the first alternative),
greedy and lazy star, greedy option, capture groups, the fixed-width
negative lookbehind `(?<!c)`, and the word boundary `\b`. -/
inductive Rx where
  | fail
  | eps
  | pred (f : Char → Bool)
  | lit (w : List Char)
  | cat (a b : Rx)
  | alt (a b : Rx)
  | star (a : Rx)
  | starL (a : Rx)
  | opt (a : Rx)
  | grp (n : Nat) (a : Rx)
  | lookNotPrev (f : Char → Bool)
  | bdry

/-- `a+` abbreviates `aa*`. -/
def rxPlus (a : Rx) : Rx := .cat a (.star a)

/-- Anchored case-insensitive literal match at offset `p`. -/
def matchLit : List Char → Input → Nat → Bool
  | [], _, _ => true
  | c :: cs, s, p =>
    match s.get? p with
    | some d => ciEqChar c d && matchLit cs s (p + 1)
    | none => false

/-- Is the character at offset `p` (if any) a word character? -/
def wordAt (s : Input) (p : Nat) : Bool :=
  match s.get? p with
  | some c => pyWord c
  | none => false

/-- Python `\b`: exactly one of the two adjacent positions holds a word
character. -/
def atBoundary (s : Input) (p : Nat) : Bool :=
  (if p = 0 then false else wordAt s (p - 1)) != wordAt s p

/-- One bounded iteration layer for `star`: `g` enumerates the body's
matches, iterations must strictly advance (Python stops a starred
subpattern that matches the empty string), and results are listed in
greedy backtracking priority (more iterations first). -/
def iterStar (g : Input → Nat → List (Nat × Caps)) : Nat → Input → Nat → List (Nat × Caps)
  | 0, _, p => [(p, [])]
  | k + 1, s, p =>
    (((g s p).filter (fun q => decide (p < q.1))).flatMap
      (fun q => (iterStar g k s q.1).map (fun r => (r.1, q.2 ++ r.2)))) ++ [(p, [])]

/-- Lazy-star counterpart: fewest iterations first. -/
def iterLazy (g : Input → Nat → List (Nat × Caps)) : Nat → Input → Nat → List (Nat × Caps)
  | 0, _, p => [(p, [])]
  | k + 1, s, p =>
    (p, []) ::
    (((g s p).filter (fun q => decide (p < q.1))).flatMap
      (fun q => (iterLazy g k s q.1).map (fun r => (r.1, q.2 ++ r.2))))

/-- Modelled from the spec: the Pattern Matcher.  `runs r s p` lists every
way `r` can match anchored at offset `p` of `s` — each entry is the end
offset plus captured group spans — in Python backtracking priority order,
so the head is the match Python's `re` would report. -/
def Rx.runs : Rx → Input → Nat → List (Nat × Caps)
  | .fail, _, _ => []
  | .eps, _, p => [(p, [])]
  | .pred f, s, p =>
    match s.get? p with
    | some c => if f c then [(p + 1, [])] else []
    | none => []
  | .lit w, s, p => if matchLit w s p then [(p + w.length, [])] else []
  | .cat a b, s, p =>
    (Rx.runs a s p).flatMap (fun q => (Rx.runs b s q.1).map (fun r => (r.1, q.2 ++ r.2)))
  | .alt a b, s, p => Rx.runs a s p ++ Rx.runs b s p
  | .star a, s, p => iterStar (fun s2 p2 => Rx.runs a s2 p2) (s.length - p) s p
  | .starL a, s, p => iterLazy (fun s2 p2 => Rx.runs a s2 p2) (s.length - p) s p
  | .opt a, s, p => Rx.runs a s p ++ [(p, [])]
  | .grp n a, s, p => (Rx.runs a s p).map (fun q => (q.1, (n, p, q.1) :: q.2))
  | .lookNotPrev f, s, p =>
    match p with
    | 0 => [(0, [])]
    | q + 1 =>
      match s.get? q with
      | some c => if f c then [] else [(p, [])]
      | none => [(p, [])]
  | .bdry, s, p => if atBoundary s p then [(p, [])] else []

/-- The match the Python engine reports for an anchored attempt at `p`:
the highest-priority complete match. -/
def firstMatch (r : Rx) (s : Input) (p : Nat) : Option (Nat × Caps) :=
  (r.runs s p).head?

/-- Insert `w` into a list sorted by strictly decreasing-or-equal length,
keeping it sorted (longest first). -/
def insertLen (w : List Char) : List (List Char) → List (List Char)
  | [] => [w]
  | v :: vs => if v.length < w.length then w :: v :: vs else v :: insertLen w vs

/-- Sort a vocabulary longest-first. -/
def sortLenDesc : List (List Char) → List (List Char)
  | [] => []
  | w :: ws => insertLen w (sortLenDesc ws)

/-- Alternation of a rule list; the first alternative wins. -/
def altList (l : List Rx) : Rx := l.foldr .alt .fail

/-- Modelled from the spec: the `words(vocabulary, prefix, suffix)`
combinator of `pygments.lexer` (not under `src/`) — one alternation
pattern over the literal vocabulary, anchored by the given prefix and
suffix fragments, ordered so that no shorter word shadows a longer word
sharing a prefix (longest-alternative-first). -/
def wordsRx (ws : List (List Char)) (pre suf : Rx) : Rx :=
  .cat pre (.cat (altList ((sortLenDesc ws).map .lit)) suf)

/-- Token classifications used by the GSQL table (plus the generic
`comment`/`name`/`whitespace` kinds of the specification's stand-alone
scenario, and the error kind of §4.3 step 6). -/
inductive TokKind where
  | keyword
  | commentSingle
  | commentMultiline
  | comment
  | nameBuiltin
  | nameFunction
  | nameVariable
  | name
  | str
  | number
  | whitespace
  | operator
  | punctuation
  | error
deriving DecidableEq, Repr

/-- An emitted token: start offset, length, classification. -/
structure Tok where
  start : Nat
  len : Nat
  kind : TokKind
deriving DecidableEq, Repr

/-- One slot of a `bygroups` action: a plain classification, or `using(this)`
(delegate the group's span to a fresh run of the same lexer). -/
inductive GroupItem where
  | kind (k : TokKind)
  | useThis
deriving DecidableEq

/-- A rule's token action: a single classification for the whole match, or
`bygroups`: one item per capture group. -/
inductive Action where
  | token (k : TokKind)
  | byGroups (items : List GroupItem)

/-- Modelled from the spec: a rule's state transition.  Every rule of the
GSQL table leaves the stack unchanged (`stay`); `push`/`pop` exist in the
engine per §3/§4.3 but are unused by this table. -/
inductive NextState where
  | stay
  | push (n : String)
  | pop

/-- One rule: pattern, action, transition. -/
structure LexRule where
  pattern : Rx
  action : Action
  next : NextState

/-- A state body entry: a plain rule, or an `include(state)` directive. -/
inductive Entry where
  | rule (r : LexRule)
  | inc (state : String)

/-- Look up a state's entry list in a declarative table. -/
def lookupState (t : List (String × List Entry)) (n : String) : List Entry :=
  match t.find? (fun e => e.1 == n) with
  | some e => e.2
  | none => []

/-- Modelled from the spec: build-time `include` expansion — each
`include(state)` directive is replaced by the named state's flattened
rule list, spliced in place.  `d` bounds the include-nesting depth
(the GSQL table nests includes one level deep). -/
def resolveE (t : List (String × List Entry)) : Nat → List Entry → List LexRule
  | 0, _ => []
  | d + 1, es =>
    es.flatMap (fun e =>
      match e with
      | .rule r => [r]
      | .inc n => resolveE t d (lookupState t n))

/-- A state's flattened rule list, includes expanded. -/
def resolveState (t : List (String × List Entry)) (n : String) : List LexRule :=
  resolveE t (t.length + 1) (lookupState t n)

/-! ## The GSQL rule table, translated from `pygments/lexers/gsql.py` -/

/-- `'comment'` rule 1: `r'\#.*'` → `Comment.Single`. -/
def commentRule1 : LexRule :=
  ⟨.cat (.pred (fun c => c == '#')) (.star (.pred dotNoNL)), .token .commentSingle, .stay⟩

/-- `'comment'` rule 2: `r'/\*(.|\n)*?\*/'` → `Comment.Multiline`. -/
def commentRule2 : LexRule :=
  ⟨.cat (.lit ['/', '*'])
    (.cat (.starL (.grp 1 (.alt (.pred dotNoNL) (.pred (fun c => c == '\n')))))
      (.lit ['*', '/'])),
   .token .commentMultiline, .stay⟩

/-- The `'keywords'` vocabulary, in source order (`gsql.py` lines 52–63). -/
def kwWords : List (List Char) :=
  (["ACCUM", "AND", "ANY", "API", "AS", "ASC", "BAG", "BATCH", "BETWEEN", "BOOL", "BOTH",
    "BREAK", "BY", "CASE", "CATCH", "COMPRESS", "CONTINUE", "COUNT",
    "CREATE", "DATETIME", "DELETE", "DESC", "DISTRIBUTED", "DO",
    "DOUBLE", "EDGE", "ELSE", "END", "ESCAPE", "EXCEPTION", "FALSE", "FILE", "FLOAT",
    "FOREACH", "FOR",
    "FROM", "GRAPH", "GROUP", "GSQL_INT_MAX", "GSQL_INT_MIN", "GSQL_UINT_MAX", "HAVING", "IF",
    "IN", "INSERT", "INT", "INTERPRET", "INTERSECT", "INTERVAL", "INTO", "IS", "ISEMPTY",
    "JSONARRAY", "JSONOBJECT", "LASTHOP",
    "LEADING", "LIKE", "LIMIT", "LIST", "LOAD_ACCUM", "MAP", "MATCH", "MINUS", "NOT",
    "NULL", "OFFSET", "OR", "ORDER", "PATH", "PER", "PINNED", "POST_ACCUM", "POST-ACCUM",
    "PRIMARY_ID", "PRINT",
    "QUERY", "RAISE", "RANGE", "REPLACE", "RESET_COLLECTION_ACCUM", "RETURN", "RETURNS",
    "RUN", "SAMPLE", "SELECT", "SELECT_VERTEX",
    "SET", "SRC", "STATIC", "STRING", "SYNTAX", "TARGET", "TAGSTGT", "THEN", "TO", "TO_CSV",
    "TRAILING", "TRUE",
    "TRY", "TUPLE", "TYPEDEF", "UINT", "UNION", "UPDATE", "VALUES", "VERTEX", "WHEN",
    "WHERE", "WHILE", "WITH"]).map String.data

/-- `'keywords'`: `words(..., prefix=r'(?<!\.)', suffix=r'\b')` → `Token.Keyword`. -/
def keywordsRule : LexRule :=
  ⟨wordsRx kwWords (.lookNotPrev (fun c => c == '.')) .bdry, .token .keyword, .stay⟩

/-- The `'clauses'` vocabulary. -/
def clausesWords : List (List Char) :=
  (["accum", "having", "limit", "order", "postAccum", "sample", "where"]).map String.data

/-- `'clauses'`: `words(...)` (no prefix, no suffix) → `Name.Builtin`. -/
def clausesRule : LexRule :=
  ⟨wordsRx clausesWords .eps .eps, .token .nameBuiltin, .stay⟩

/-- The `'accums'` vocabulary. -/
def accumsWords : List (List Char) :=
  (["andaccum", "arrayaccum", "avgaccum", "bagaccum", "bitwiseandaccum",
    "bitwiseoraccum", "groupbyaccum", "heapaccum", "listaccum", "MapAccum",
    "maxaccum", "minaccum", "oraccum", "setaccum", "sumaccum"]).map String.data

/-- `'accums'`: `words(...)` → `Name.Builtin`. -/
def accumsRule : LexRule :=
  ⟨wordsRx accumsWords .eps .eps, .token .nameBuiltin, .stay⟩

/-- The `'functions'` vocabulary. -/
def functionsWords : List (List Char) :=
  (["abs", "acos", "addTags", "ascii", "asin", "atan", "atan2", "avg", "ceil",
    "chr", "clear", "coalesce", "concat", "contains", "containsKey", "cos", "cosh", "count",
    "datetime_add", "datetime_diff", "datetime_format", "datetime_sub",
    "datetime_to_epoch", "day", "degrees", "difference", "differenceTags",
    "edgeAttribute", "epoch_to_datetime", "evaluate", "exp", "filter", "find_in_set",
    "flatten", "flatten_json_array", "float_to_int", "floor", "fmod", "get", "getAttr",
    "getBool", "getDouble", "getInt", "getJsonArray", "getJsonObject", "getString",
    "getTags", "getvid", "gsql_concat", "gsql_current_time_epoch", "gsql_day",
    "gsql_day_epoch", "gsql_find", "gsql_is_false", "gsql_is_not_empty_string",
    "gsql_is_true", "gsql_length", "gsql_lower", "gsql_ltrim", "gsql_month",
    "gsql_month_epoch", "gsql_regex_match", "gsql_regex_replace",
    "gsql_replace", "gsql_reverse", "gsql_rtrim", "gsql_split_by_space",
    "gsql_substring", "gsql_to_bool", "gsql_to_int", "gsql_to_uint",
    "gsql_token_equal", "gsql_token_ignore_case_equal", "gsql_trim",
    "gsql_ts_to_epoch_seconds", "gsql_upper", "gsql_uuid_v4", "gsql_year",
    "gsql_year_epoch", "hasTags", "hour", "ignore_if_exists", "instr",
    "intersectTags", "isDirected", "isTaggable", "ldexp", "left", "length", "log", "log10",
    "log2", "lower", "lpad", "ltrim", "max", "min", "minute", "month", "neighborAttribute",
    "neighbors", "now", "outdegree", "overwrite", "parse_json_array",
    "parse_json_object", "PI", "pop", "pow", "println", "radians", "rand", "reallocate",
    "reduce", "remove", "removeAll", "removeAllTags", "removeTags", "replace", "resize",
    "right", "round", "rpad", "rtrim", "second", "selectVertex", "setAttr", "sign", "sin",
    "sinh", "size", "soundex", "space", "split", "sqrt", "square", "str_to_int", "substr",
    "sum", "tan", "tanh", "to_datetime", "to_float", "to_int", "to_string", "to_vertex",
    "to_vertex_set", "token_len", "top", "translate", "trim", "trunc", "type",
    "upper", "year"]).map String.data

/-- `'functions'`: `words(...)` → `Name.Function`. -/
def functionsRule : LexRule :=
  ⟨wordsRx functionsWords .eps .eps, .token .nameFunction, .stay⟩

/-- Group 1 of the first `'relations'` pattern: `(-\s?)`. -/
def relG1 : Rx := .cat (.pred (fun c => c == '-')) (.opt (.pred pySpace))

/-- Group 2 of the first `'relations'` pattern: `(\(.*\:\w?\))`. -/
def relG2 : Rx :=
  .cat (.pred (fun c => c == '('))
    (.cat (.star (.pred dotNoNL))
      (.cat (.pred (fun c => c == ':'))
        (.cat (.opt (.pred pyWord)) (.pred (fun c => c == ')')))))

/-- Group 3 of the first `'relations'` pattern: `(\s?-)`. -/
def relG3 : Rx := .cat (.opt (.pred pySpace)) (.pred (fun c => c == '-'))

/-- The first `'relations'` pattern: `r'(-\s?)(\(.*\:\w?\))(\s?-)'`. -/
def relPat : Rx := .cat (.grp 1 relG1) (.cat (.grp 2 relG2) (.grp 3 relG3))

/-- `'relations'` rule 1: `bygroups(Operator, using(this), Operator)`. -/
def relationsRule1 : LexRule :=
  ⟨relPat, .byGroups [.kind .operator, .useThis, .kind .operator], .stay⟩

/-- `'relations'` rule 2: `r'->|<-'` → `Operator`. -/
def relationsRule2 : LexRule :=
  ⟨.alt (.lit ['-', '>']) (.lit ['<', '-']), .token .operator, .stay⟩

/-- `'relations'` rule 3: `r'[.*{}\[\]\<\>\_]'` → `Punctuation`. -/
def relationsRule3 : LexRule :=
  ⟨.pred (fun c => ['.', '*', '{', '}', '[', ']', '<', '>', '_'].contains c),
   .token .punctuation, .stay⟩

/-- `'strings'` rule 1: `r'"([^"\\]|\\.)*"'` → `String`. -/
def stringsRule1 : LexRule :=
  ⟨.cat (.pred (fun c => c == '"'))
    (.cat (.star (.grp 1 (.alt (.pred (fun c => !(c == '"' || c == '\\')))
      (.cat (.pred (fun c => c == '\\')) (.pred dotNoNL)))))
      (.pred (fun c => c == '"'))),
   .token .str, .stay⟩

/-- `'strings'` rule 2: `r'@{1,2}\w+'` → `Name.Variable`. -/
def stringsRule2 : LexRule :=
  ⟨.cat (.pred (fun c => c == '@'))
    (.cat (.opt (.pred (fun c => c == '@'))) (rxPlus (.pred pyWord))),
   .token .nameVariable, .stay⟩

/-- `'whitespace'`: `r'\s+'` → `Whitespace`. -/
def whitespaceRule : LexRule :=
  ⟨rxPlus (.pred pySpace), .token .whitespace, .stay⟩

/-- `'barewords'` rule 1: `r'[a-z]\w*'` → `Name` (case-insensitive table). -/
def barewordsRule1 : LexRule :=
  ⟨.cat (.pred letterAZ) (.star (.pred pyWord)), .token .name, .stay⟩

/-- `'barewords'` rule 2: `r'(\d+\.\d+|\d+)'` → `Number`. -/
def barewordsRule2 : LexRule :=
  ⟨.grp 1 (.alt
      (.cat (rxPlus (.pred pyDigit)) (.cat (.pred (fun c => c == '.')) (rxPlus (.pred pyDigit))))
      (rxPlus (.pred pyDigit))),
   .token .number, .stay⟩

/-- The operator sequences of the first `'operators'` pattern, in source
order: `(\-\=|\+\=|\*\=|\\\=|\=|\=\=|\=\=\=|\+|\-|\*|\\|\+\=|\>|\<)`. -/
def opSeqs : List (List Char) :=
  [['-', '='], ['+', '='], ['*', '='], ['\\', '='], ['='], ['=', '='], ['=', '=', '='],
   ['+'], ['-'], ['*'], ['\\'], ['+', '='], ['>'], ['<']]

/-- `'operators'` rule 1:
`r'\$|[^0-9|\/|\-](\-\=|...|\>|\<)[^\>|\/]'` → `Operator`. -/
def operatorsRule1 : LexRule :=
  ⟨.alt (.pred (fun c => c == '$'))
    (.cat (.pred (fun c => !(pyDigit c || c == '|' || c == '/' || c == '-')))
      (.cat (.grp 1 (altList (opSeqs.map .lit)))
        (.pred (fun c => !(c == '>' || c == '|' || c == '/'))))),
   .token .operator, .stay⟩

/-- `'operators'` rule 2: `r'(\||\(|\)|\,|\;|\=|\-|\+|\*|\/|\>|\<|\:)'` → `Operator`. -/
def operatorsRule2 : LexRule :=
  ⟨.grp 1 (altList ((['|', '(', ')', ',', ';', '=', '-', '+', '*', '/', '>', '<', ':'] :
      List Char).map (fun c => Rx.lit [c]))),
   .token .operator, .stay⟩

/-- The declarative GSQL token table (`GSQLLexer.tokens`): the `'root'`
state is built entirely from `include` directives, in source order. -/
def gsqlTable : List (String × List Entry) :=
  [("root",
    [.inc "comment", .inc "keywords", .inc "clauses", .inc "accums", .inc "relations",
     .inc "functions", .inc "strings", .inc "whitespace", .inc "barewords",
     .inc "operators"]),
   ("comment", [.rule commentRule1, .rule commentRule2]),
   ("keywords", [.rule keywordsRule]),
   ("clauses", [.rule clausesRule]),
   ("accums", [.rule accumsRule]),
   ("relations", [.rule relationsRule1, .rule relationsRule2, .rule relationsRule3]),
   ("functions", [.rule functionsRule]),
   ("strings", [.rule stringsRule1, .rule stringsRule2]),
   ("whitespace", [.rule whitespaceRule]),
   ("barewords", [.rule barewordsRule1, .rule barewordsRule2]),
   ("operators", [.rule operatorsRule1, .rule operatorsRule2])]

/-- The resolved (build-time flattened) GSQL table, keyed by state name. -/
def gsqlStates : String → List LexRule := fun n => resolveState gsqlTable n

/-! ## The State Stack Engine (modelled from the spec, §4.3) -/

/-- First span recorded for capture group `n`. -/
def groupSpan (caps : Caps) (n : Nat) : Option (Nat × Nat) :=
  match caps.find? (fun e => e.1 == n) with
  | some e => some e.2
  | none => none

/-- Modelled from the spec: applying a rule's `StateTransition` to the
state stack (top = head; the root state is never popped away). -/
def applyNext (t : NextState) (st : List String) : List String :=
  match t with
  | .stay => st
  | .push n => n :: st
  | .pop => if st.length ≤ 1 then st else st.tail

/-- Modelled from the spec: try the top state's rules in table order and
return the first rule whose pattern matches at `p`, with its match. -/
def findMatch (rules : List LexRule) (s : Input) (p : Nat) : Option (LexRule × Nat × Caps) :=
  match rules with
  | [] => none
  | r :: rest =>
    match (r.pattern.runs s p).head? with
    | some q => some (r, q.1, q.2)
    | none => findMatch rest s p

/-- Emit the tokens of one `bygroups` action: one item per capture group
(group numbers start at 1); a `using(this)` item delegates its group's
span to `deleg` and shifts the delegate's tokens back into the parent's
coordinate space. -/
def emitItems (deleg : Input → List Tok) (s : Input) (caps : Caps) :
    Nat → List GroupItem → List Tok
  | _, [] => []
  | i, it :: rest =>
    (match groupSpan caps i, it with
     | some (a, b), .kind k => [⟨a, b - a, k⟩]
     | some (a, b), .useThis =>
       (deleg ((s.drop a).take (b - a))).map (fun t => ⟨t.start + a, t.len, t.kind⟩)
     | none, _ => []) ++ emitItems deleg s caps (i + 1) rest

/-- Emit the tokens of a matched rule's action over the span `[p, q)`. -/
def emitWith (deleg : Input → List Tok) (s : Input) (p q : Nat) (caps : Caps) :
    Action → List Tok
  | .token k => [⟨p, q - p, k⟩]
  | .byGroups items => emitItems deleg s caps 1 items

/-- Modelled from the spec: the State Stack Engine's main loop (§4.3).
Per step: try the top state's rules in order at the cursor; apply the
first match's action and transition and advance by the consumed length; if
no rule matches (or a match fails to advance), emit one single-character
error token and advance by one — tokenization never halts early.  The
fuel argument decreases once per step; `s.length + 1` steps always
suffice because every step advances the cursor. -/
def run (states : String → List LexRule) : Nat → Input → Nat → List String → List Tok
  | 0, _, _, _ => []
  | f + 1, s, p, st =>
    if p < s.length then
      match findMatch (states (st.headD "root")) s p with
      | some (r, q, caps) =>
        if p < q then
          emitWith (fun inp => run states f inp 0 ["root"]) s p q caps r.action ++
            run states f s q (applyNext r.next st)
        else ⟨p, 1, .error⟩ :: run states f s (p + 1) st
      | none => ⟨p, 1, .error⟩ :: run states f s (p + 1) st
    else []

/-- Tokenize an input with the GSQL table, starting in the root state. -/
def tokenize (s : Input) : List Tok :=
  run gsqlStates (s.length + 1) s 0 ["root"]

/-! ## The specification's stand-alone scenario table (§8, property 7) -/

/-- The scenario table of §8 property 7: root state rules
`[("#.*", Comment), ("[a-z]+", Name), ("\\s+", Whitespace)]`. -/
def scenStates : String → List LexRule := fun n =>
  if n == "root" then
    [⟨.cat (.pred (fun c => c == '#')) (.star (.pred dotNoNL)), .token .comment, .stay⟩,
     ⟨rxPlus (.pred (fun c => 97 ≤ c.toNat && c.toNat ≤ 122)), .token .name, .stay⟩,
     ⟨rxPlus (.pred pySpace), .token .whitespace, .stay⟩]
  else []

/-- Tokenize with the scenario table. -/
def tokenizeScen (s : Input) : List Tok :=
  run scenStates (s.length + 1) s 0 ["root"]

/-! ## Predicates used by the theorems -/

/-- Syntactic check: the pattern contains no capture group. -/
def noCaps : Rx → Bool
  | .fail => true
  | .eps => true
  | .pred _ => true
  | .lit _ => true
  | .cat a b => noCaps a && noCaps b
  | .alt a b => noCaps a && noCaps b
  | .star a => noCaps a
  | .starL a => noCaps a
  | .opt a => noCaps a
  | .grp _ _ => false
  | .lookNotPrev _ => true
  | .bdry => true

/-- Syntactic check: every match of the pattern consumes at least one
character (the zero-length-match rejection guarantee of §4.3). -/
def consumesOne : Rx → Bool
  | .fail => true
  | .eps => false
  | .pred _ => true
  | .lit w => !w.isEmpty
  | .cat a b => consumesOne a || consumesOne b
  | .alt a b => consumesOne a && consumesOne b
  | .star _ => false
  | .starL _ => false
  | .opt _ => false
  | .grp _ a => consumesOne a
  | .lookNotPrev _ => false
  | .bdry => false

/-- `chainFrom a b toks`: the token spans start at `a`, are nonempty, abut
each other in increasing offset order with no gap or overlap, and end
exactly at `b`. -/
def chainFrom : Nat → Nat → List Tok → Prop
  | a, b, [] => a = b
  | a, b, t :: ts => t.start = a ∧ 0 < t.len ∧ chainFrom (a + t.len) b ts

/-- The input text spanned by one token. -/
def spanText (s : Input) (t : Tok) : Input := (s.drop t.start).take t.len

/-- The concatenation of the text spanned by a token list. -/
def spanConcat (s : Input) (toks : List Tok) : Input := toks.flatMap (spanText s)

/-- A zero-width assertion: at any position it either fails or matches
exactly the empty span with no captures (`\b`, `(?<!\.)`, the empty
prefix/suffix of `words`). -/
def assertionLike (r : Rx) : Prop := ∀ s p, r.runs s p = [] ∨ r.runs s p = [(p, [])]

/-- `w` is one of the alternatives that lets the whole `words` rule
succeed at `p`: the anchoring prefix matches at `p`, the literal matches,
and the anchoring suffix matches after it. -/
def wordHit (pre suf : Rx) (s : Input) (p : Nat) (w : List Char) : Prop :=
  pre.runs s p ≠ [] ∧ matchLit w s p = true ∧ suf.runs s (p + w.length) ≠ []

/-- The six words shared (up to case) by the `'keywords'` and `'clauses'`
vocabularies: every clauses word except `postAccum`. -/
def sixClauseWords : List (List Char) :=
  (["ACCUM", "HAVING", "LIMIT", "ORDER", "SAMPLE", "WHERE"]).map String.data

/-! ## Basic facts about the matcher -/

theorem runs_lookNotPrev_zero (f : Char → Bool) (s : Input) :
    (Rx.lookNotPrev f).runs s 0 = [(0, [])] := rfl

theorem runs_lookNotPrev_succ (f : Char → Bool) (s : Input) (p : Nat) :
    (Rx.lookNotPrev f).runs s (p + 1) =
      (match s.get? p with
       | some c => if f c then [] else [(p + 1, [])]
       | none => [(p + 1, [])]) := rfl

theorem matchLit_le {w : List Char} {s : Input} {p : Nat} (hp : p ≤ s.length)
    (h : matchLit w s p = true) : p + w.length ≤ s.length := by
  induction w generalizing p with
  | nil => simpa using hp
  | cons c cs ih =>
    simp only [matchLit] at h
    cases hg : s.get? p with
    | none => rw [hg] at h; exact absurd h (by simp)
    | some d =>
      rw [hg] at h
      have hlt : p < s.length := (List.get?_eq_some.mp hg).1
      have h2 := @ih (p + 1) hlt (Bool.and_elim_right h)
      simp only [List.length_cons]
      omega

theorem iterStar_mono {g : Input → Nat → List (Nat × Caps)} :
    ∀ {k : Nat} {s : Input} {p : Nat} {q : Nat} {c : Caps},
      (q, c) ∈ iterStar g k s p → p ≤ q := by
  intro k
  induction k with
  | zero => intro s p q c h; simp [iterStar, Prod.mk.injEq] at h; omega
  | succ k ih =>
    intro s p q c h
    simp only [iterStar, List.mem_append, List.mem_flatMap, List.mem_map,
      List.mem_filter, List.mem_singleton, Prod.mk.injEq, decide_eq_true_eq] at h
    rcases h with ⟨x, ⟨_, hx⟩, r, hr, hq, _⟩ | ⟨hq, _⟩
    · have h2 : x.1 ≤ r.1 := ih hr
      omega
    · omega

theorem iterLazy_mono {g : Input → Nat → List (Nat × Caps)} :
    ∀ {k : Nat} {s : Input} {p : Nat} {q : Nat} {c : Caps},
      (q, c) ∈ iterLazy g k s p → p ≤ q := by
  intro k
  induction k with
  | zero => intro s p q c h; simp [iterLazy, Prod.mk.injEq] at h; omega
  | succ k ih =>
    intro s p q c h
    simp only [iterLazy, List.mem_cons, List.mem_flatMap, List.mem_map,
      List.mem_filter, Prod.mk.injEq, decide_eq_true_eq] at h
    rcases h with ⟨hq, _⟩ | ⟨x, ⟨_, hx⟩, r, hr, hq, _⟩
    · omega
    · have h2 : x.1 ≤ r.1 := ih hr
      omega

theorem Rx.runs_mono : ∀ (r : Rx) {s : Input} {p q : Nat} {c : Caps},
    (q, c) ∈ r.runs s p → p ≤ q := by
  intro r
  induction r with
  | fail => intro s p q c h; simp [Rx.runs] at h
  | eps => intro s p q c h; simp [Rx.runs, Prod.mk.injEq] at h; omega
  | pred f =>
    intro s p q c h
    simp only [Rx.runs] at h
    rcases hg : s.get? p with _ | d <;> rw [hg] at h
    · simp at h
    · by_cases hf : f d = true <;> simp [hf, Prod.mk.injEq] at h
      omega
  | lit w =>
    intro s p q c h
    simp only [Rx.runs] at h
    by_cases hm : matchLit w s p = true <;> simp [hm, Prod.mk.injEq] at h
    omega
  | cat a b iha ihb =>
    intro s p q c h
    simp only [Rx.runs, List.mem_flatMap, List.mem_map, Prod.mk.injEq] at h
    rcases h with ⟨x, hx, r, hr, hq, _⟩
    have h1 := iha hx
    have h2 := ihb hr
    omega
  | alt a b iha ihb =>
    intro s p q c h
    simp only [Rx.runs, List.mem_append] at h
    rcases h with h | h
    exacts [iha h, ihb h]
  | star a iha =>
    intro s p q c h
    exact iterStar_mono h
  | starL a iha =>
    intro s p q c h
    exact iterLazy_mono h
  | opt a iha =>
    intro s p q c h
    simp only [Rx.runs, List.mem_append, List.mem_singleton, Prod.mk.injEq] at h
    rcases h with h | ⟨hq, _⟩
    · exact iha h
    · omega
  | grp n a iha =>
    intro s p q c h
    simp only [Rx.runs, List.mem_map, Prod.mk.injEq] at h
    rcases h with ⟨x, hx, hq, _⟩
    have := iha hx
    omega
  | lookNotPrev f =>
    intro s p q c h
    rcases p with _ | p2
    · rw [runs_lookNotPrev_zero] at h
      simp [Prod.mk.injEq] at h; omega
    · rw [runs_lookNotPrev_succ] at h
      rcases hg : s.get? p2 with _ | d <;> rw [hg] at h
      · simp [Prod.mk.injEq] at h; omega
      · by_cases hf : f d = true <;> simp [hf, Prod.mk.injEq] at h
        omega
  | bdry =>
    intro s p q c h
    simp only [Rx.runs] at h
    by_cases hb : atBoundary s p = true <;> simp [hb, Prod.mk.injEq] at h
    omega

theorem iterStar_le {g : Input → Nat → List (Nat × Caps)} {s : Input}
    (hg : ∀ p, p ≤ s.length → ∀ q c, (q, c) ∈ g s p → q ≤ s.length) :
    ∀ {k p : Nat}, p ≤ s.length → ∀ {q : Nat} {c : Caps},
      (q, c) ∈ iterStar g k s p → q ≤ s.length := by
  intro k
  induction k with
  | zero => intro p hp q c h; simp [iterStar, Prod.mk.injEq] at h; omega
  | succ k ih =>
    intro p hp q c h
    simp only [iterStar, List.mem_append, List.mem_flatMap, List.mem_map,
      List.mem_filter, List.mem_singleton, Prod.mk.injEq, decide_eq_true_eq] at h
    rcases h with ⟨x, ⟨hxg, hx⟩, r, hr, hq, _⟩ | ⟨hq, _⟩
    · have hx1 : x.1 ≤ s.length := hg p hp x.1 x.2 hxg
      have h2 : r.1 ≤ s.length := ih hx1 hr
      omega
    · omega

theorem iterLazy_le {g : Input → Nat → List (Nat × Caps)} {s : Input}
    (hg : ∀ p, p ≤ s.length → ∀ q c, (q, c) ∈ g s p → q ≤ s.length) :
    ∀ {k p : Nat}, p ≤ s.length → ∀ {q : Nat} {c : Caps},
      (q, c) ∈ iterLazy g k s p → q ≤ s.length := by
  intro k
  induction k with
  | zero => intro p hp q c h; simp [iterLazy, Prod.mk.injEq] at h; omega
  | succ k ih =>
    intro p hp q c h
    simp only [iterLazy, List.mem_cons, List.mem_flatMap, List.mem_map,
      List.mem_filter, Prod.mk.injEq, decide_eq_true_eq] at h
    rcases h with ⟨hq, _⟩ | ⟨x, ⟨hxg, hx⟩, r, hr, hq, _⟩
    · omega
    · have hx1 : x.1 ≤ s.length := hg p hp x.1 x.2 hxg
      have h2 : r.1 ≤ s.length := ih hx1 hr
      omega

theorem Rx.runs_le : ∀ (r : Rx) {s : Input} {p : Nat}, p ≤ s.length →
    ∀ {q : Nat} {c : Caps}, (q, c) ∈ r.runs s p → q ≤ s.length := by
  intro r
  induction r with
  | fail => intro s p hp q c h; simp [Rx.runs] at h
  | eps => intro s p hp q c h; simp [Rx.runs, Prod.mk.injEq] at h; omega
  | pred f =>
    intro s p hp q c h
    simp only [Rx.runs] at h
    rcases hg : s.get? p with _ | d <;> rw [hg] at h
    · simp at h
    · have hlt : p < s.length := (List.get?_eq_some.mp hg).1
      by_cases hf : f d = true <;> simp [hf, Prod.mk.injEq] at h
      omega
  | lit w =>
    intro s p hp q c h
    simp only [Rx.runs] at h
    by_cases hm : matchLit w s p = true <;> simp [hm, Prod.mk.injEq] at h
    have := matchLit_le hp hm
    omega
  | cat a b iha ihb =>
    intro s p hp q c h
    simp only [Rx.runs, List.mem_flatMap, List.mem_map, Prod.mk.injEq] at h
    rcases h with ⟨x, hx, r, hr, hq, _⟩
    have h1 : x.1 ≤ s.length := iha hp hx
    have h2 : r.1 ≤ s.length := ihb h1 hr
    omega
  | alt a b iha ihb =>
    intro s p hp q c h
    simp only [Rx.runs, List.mem_append] at h
    rcases h with h | h
    exacts [iha hp h, ihb hp h]
  | star a iha =>
    intro s p hp q c h
    exact iterStar_le (fun p2 hp2 q2 c2 h2 => iha hp2 h2) hp h
  | starL a iha =>
    intro s p hp q c h
    exact iterLazy_le (fun p2 hp2 q2 c2 h2 => iha hp2 h2) hp h
  | opt a iha =>
    intro s p hp q c h
    simp only [Rx.runs, List.mem_append, List.mem_singleton, Prod.mk.injEq] at h
    rcases h with h | ⟨hq, _⟩
    · exact iha hp h
    · omega
  | grp n a iha =>
    intro s p hp q c h
    simp only [Rx.runs, List.mem_map, Prod.mk.injEq] at h
    rcases h with ⟨x, hx, hq, _⟩
    have := iha hp hx
    omega
  | lookNotPrev f =>
    intro s p hp q c h
    rcases p with _ | p2
    · rw [runs_lookNotPrev_zero] at h
      simp [Prod.mk.injEq] at h; omega
    · rw [runs_lookNotPrev_succ] at h
      rcases hg : s.get? p2 with _ | d <;> rw [hg] at h
      · simp [Prod.mk.injEq] at h; omega
      · by_cases hf : f d = true <;> simp [hf, Prod.mk.injEq] at h
        omega
  | bdry =>
    intro s p hp q c h
    simp only [Rx.runs] at h
    by_cases hb : atBoundary s p = true <;> simp [hb, Prod.mk.injEq] at h
    omega

theorem iterStar_caps {g : Input → Nat → List (Nat × Caps)} {s : Input}
    (hg : ∀ p q c, (q, c) ∈ g s p → c = []) :
    ∀ {k p q : Nat} {c : Caps}, (q, c) ∈ iterStar g k s p → c = [] := by
  intro k
  induction k with
  | zero => intro p q c h; simp [iterStar, Prod.mk.injEq] at h; exact h.2
  | succ k ih =>
    intro p q c h
    simp only [iterStar, List.mem_append, List.mem_flatMap, List.mem_map,
      List.mem_filter, List.mem_singleton, Prod.mk.injEq, decide_eq_true_eq] at h
    rcases h with ⟨x, ⟨hxg, _⟩, r, hr, _, hc⟩ | ⟨_, hc⟩
    · have h1 : x.2 = [] := hg p x.1 x.2 (by simpa using hxg)
      have h2 : r.2 = [] := ih hr
      rw [← hc, h1, h2]
      rfl
    · exact hc

theorem iterLazy_caps {g : Input → Nat → List (Nat × Caps)} {s : Input}
    (hg : ∀ p q c, (q, c) ∈ g s p → c = []) :
    ∀ {k p q : Nat} {c : Caps}, (q, c) ∈ iterLazy g k s p → c = [] := by
  intro k
  induction k with
  | zero => intro p q c h; simp [iterLazy, Prod.mk.injEq] at h; exact h.2
  | succ k ih =>
    intro p q c h
    simp only [iterLazy, List.mem_cons, List.mem_flatMap, List.mem_map,
      List.mem_filter, Prod.mk.injEq, decide_eq_true_eq] at h
    rcases h with ⟨_, hc⟩ | ⟨x, ⟨hxg, _⟩, r, hr, _, hc⟩
    · exact hc
    · have h1 : x.2 = [] := hg p x.1 x.2 (by simpa using hxg)
      have h2 : r.2 = [] := ih hr
      rw [← hc, h1, h2]
      rfl

theorem Rx.runs_caps : ∀ (r : Rx), noCaps r = true → ∀ {s : Input} {p q : Nat} {c : Caps},
    (q, c) ∈ r.runs s p → c = [] := by
  intro r
  induction r with
  | fail => intro _ s p q c h; simp [Rx.runs] at h
  | eps => intro _ s p q c h; simp [Rx.runs, Prod.mk.injEq] at h; exact h.2
  | pred f =>
    intro _ s p q c h
    simp only [Rx.runs] at h
    rcases hg : s.get? p with _ | d <;> rw [hg] at h
    · simp at h
    · by_cases hf : f d = true <;> simp [hf, Prod.mk.injEq] at h
      exact h.2
  | lit w =>
    intro _ s p q c h
    simp only [Rx.runs] at h
    by_cases hm : matchLit w s p = true <;> simp [hm, Prod.mk.injEq] at h
    exact h.2
  | cat a b iha ihb =>
    intro hnc s p q c h
    simp only [noCaps, Bool.and_eq_true] at hnc
    simp only [Rx.runs, List.mem_flatMap, List.mem_map, Prod.mk.injEq] at h
    rcases h with ⟨x, hx, r, hr, _, hc⟩
    have h1 : x.2 = [] := iha hnc.1 hx
    have h2 : r.2 = [] := ihb hnc.2 hr
    rw [← hc, h1, h2]
    rfl
  | alt a b iha ihb =>
    intro hnc s p q c h
    simp only [noCaps, Bool.and_eq_true] at hnc
    simp only [Rx.runs, List.mem_append] at h
    rcases h with h | h
    exacts [iha hnc.1 h, ihb hnc.2 h]
  | star a iha =>
    intro hnc s p q c h
    exact iterStar_caps (fun p2 q2 c2 h2 => iha (by simpa [noCaps] using hnc) h2) h
  | starL a iha =>
    intro hnc s p q c h
    exact iterLazy_caps (fun p2 q2 c2 h2 => iha (by simpa [noCaps] using hnc) h2) h
  | opt a iha =>
    intro hnc s p q c h
    simp only [Rx.runs, List.mem_append, List.mem_singleton, Prod.mk.injEq] at h
    rcases h with h | ⟨_, hc⟩
    · exact iha (by simpa [noCaps] using hnc) h
    · exact hc
  | grp n a iha =>
    intro hnc _ _ _ _ _
    simp [noCaps] at hnc
  | lookNotPrev f =>
    intro _ s p q c h
    rcases p with _ | p2
    · rw [runs_lookNotPrev_zero] at h
      simp [Prod.mk.injEq] at h
      exact h.2
    · rw [runs_lookNotPrev_succ] at h
      rcases hg : s.get? p2 with _ | d <;> rw [hg] at h
      · simp [Prod.mk.injEq] at h; exact h.2
      · by_cases hf : f d = true <;> simp [hf, Prod.mk.injEq] at h
        exact h.2
  | bdry =>
    intro _ s p q c h
    simp only [Rx.runs] at h
    by_cases hb : atBoundary s p = true <;> simp [hb, Prod.mk.injEq] at h
    exact h.2

theorem Rx.runs_consumes : ∀ (r : Rx), consumesOne r = true →
    ∀ {s : Input} {p q : Nat} {c : Caps}, (q, c) ∈ r.runs s p → p < q := by
  intro r
  induction r with
  | fail => intro _ s p q c h; simp [Rx.runs] at h
  | eps => intro hco; simp [consumesOne] at hco
  | pred f =>
    intro _ s p q c h
    simp only [Rx.runs] at h
    rcases hg : s.get? p with _ | d <;> rw [hg] at h
    · simp at h
    · by_cases hf : f d = true <;> simp [hf, Prod.mk.injEq] at h
      omega
  | lit w =>
    intro hco s p q c h
    simp only [consumesOne, Bool.not_eq_true'] at hco
    simp only [Rx.runs] at h
    by_cases hm : matchLit w s p = true <;> simp [hm, Prod.mk.injEq] at h
    have hw : w ≠ [] := by
      intro hnil
      rw [hnil] at hco
      simp at hco
    have : 0 < w.length := List.length_pos.mpr hw
    omega
  | cat a b iha ihb =>
    intro hco s p q c h
    simp only [consumesOne, Bool.or_eq_true] at hco
    simp only [Rx.runs, List.mem_flatMap, List.mem_map, Prod.mk.injEq] at h
    rcases h with ⟨x, hx, r, hr, hq, _⟩
    rcases hco with hco | hco
    · have h1 : p < x.1 := iha hco hx
      have h2 : x.1 ≤ r.1 := Rx.runs_mono b hr
      omega
    · have h1 : p ≤ x.1 := Rx.runs_mono a hx
      have h2 : x.1 < r.1 := ihb hco hr
      omega
  | alt a b iha ihb =>
    intro hco s p q c h
    simp only [consumesOne, Bool.and_eq_true] at hco
    simp only [Rx.runs, List.mem_append] at h
    rcases h with h | h
    exacts [iha hco.1 h, ihb hco.2 h]
  | star a iha => intro hco; simp [consumesOne] at hco
  | starL a iha => intro hco; simp [consumesOne] at hco
  | opt a iha => intro hco; simp [consumesOne] at hco
  | grp n a iha =>
    intro hco s p q c h
    simp only [Rx.runs, List.mem_map, Prod.mk.injEq] at h
    rcases h with ⟨x, hx, hq, _⟩
    have := iha (by simpa [consumesOne] using hco) hx
    omega
  | lookNotPrev f => intro hco; simp [consumesOne] at hco
  | bdry => intro hco; simp [consumesOne] at hco

/-! ## Alternation and `words` -/

theorem altList_runs (l : List Rx) (s : Input) (p : Nat) :
    (altList l).runs s p = l.flatMap (fun r => r.runs s p) := by
  induction l with
  | nil => simp [altList, Rx.runs]
  | cons r rest ih =>
    simp only [altList, List.foldr_cons, List.flatMap_cons]
    show (Rx.alt r (altList rest)).runs s p = _
    simp only [Rx.runs]
    rw [ih]

theorem mem_insertLen {w v : List Char} {l : List (List Char)} :
    v ∈ insertLen w l ↔ v = w ∨ v ∈ l := by
  induction l with
  | nil => simp [insertLen]
  | cons u us ih =>
    simp only [insertLen]
    by_cases hlt : u.length < w.length
    · simp [hlt, List.mem_cons]
    · simp only [hlt, if_false, List.mem_cons, ih]
      tauto

theorem mem_sortLenDesc {w : List Char} {ws : List (List Char)} :
    w ∈ sortLenDesc ws ↔ w ∈ ws := by
  induction ws with
  | nil => simp [sortLenDesc]
  | cons v vs ih =>
    simp only [sortLenDesc, mem_insertLen, List.mem_cons, ih]

theorem pairwise_insertLen {w : List Char} {l : List (List Char)}
    (h : l.Pairwise (fun a b => b.length ≤ a.length)) :
    (insertLen w l).Pairwise (fun a b => b.length ≤ a.length) := by
  induction l with
  | nil => simp [insertLen]
  | cons u us ih =>
    rw [List.pairwise_cons] at h
    simp only [insertLen]
    by_cases hlt : u.length < w.length
    · simp only [hlt, if_true]
      rw [List.pairwise_cons]
      constructor
      · intro v hv
        rcases List.mem_cons.mp hv with rfl | hv2
        · omega
        · have := h.1 v hv2
          omega
      · rw [List.pairwise_cons]
        exact h
    · simp only [hlt, if_false]
      rw [List.pairwise_cons]
      constructor
      · intro v hv
        rcases mem_insertLen.mp hv with rfl | hv2
        · omega
        · exact h.1 v hv2
      · exact ih h.2

theorem pairwise_sortLenDesc (ws : List (List Char)) :
    (sortLenDesc ws).Pairwise (fun a b => b.length ≤ a.length) := by
  induction ws with
  | nil => simp [sortLenDesc]
  | cons v vs ih => exact pairwise_insertLen ih

theorem cat_altList_runs (suf : Rx) (s : Input) (p : Nat) : ∀ (l : List Rx),
    (Rx.cat (altList l) suf).runs s p =
      l.flatMap (fun r => (r.runs s p).flatMap
        (fun q => (suf.runs s q.1).map (fun r2 => (r2.1, q.2 ++ r2.2)))) := by
  intro l
  simp only [Rx.runs, altList_runs]
  induction l with
  | nil => simp
  | cons r rest ih =>
    simp only [List.flatMap_cons, List.flatMap_append, ih]

theorem scan_head {suf : Rx} (hsuf : assertionLike suf) {s : Input} {p : Nat} :
    ∀ {ws : List (List Char)},
      ws.Pairwise (fun a b => b.length ≤ a.length) →
      ∀ {w0 : List Char}, w0 ∈ ws → matchLit w0 s p = true →
        suf.runs s (p + w0.length) ≠ [] →
      ∃ w, w ∈ ws ∧ matchLit w s p = true ∧ suf.runs s (p + w.length) ≠ [] ∧
        w0.length ≤ w.length ∧
        ((Rx.cat (altList (ws.map .lit)) suf).runs s p).head? = some (p + w.length, []) := by
  intro ws
  induction ws with
  | nil => intro _ w0 h0; simp at h0
  | cons v vs ih =>
    intro hpair w0 hw0 hm0 hs0
    rw [List.pairwise_cons] at hpair
    by_cases hv : matchLit v s p = true ∧ suf.runs s (p + v.length) ≠ []
    · refine ⟨v, List.mem_cons_self v vs, hv.1, hv.2, ?_, ?_⟩
      · rcases List.mem_cons.mp hw0 with rfl | hw0v
        · exact Nat.le_refl _
        · exact hpair.1 w0 hw0v
      · rw [List.map_cons, cat_altList_runs, List.flatMap_cons]
        have hlit : (Rx.lit v).runs s p = [(p + v.length, [])] := by
          simp [Rx.runs, hv.1]
        rw [hlit]
        rcases hsuf s (p + v.length) with hse | hse
        · exact absurd hse hv.2
        · simp [hse]
    · have hw0vs : w0 ∈ vs := by
        rcases List.mem_cons.mp hw0 with rfl | h2
        · exact absurd ⟨hm0, hs0⟩ hv
        · exact h2
      obtain ⟨w, hwvs, hwm, hws, hwlen, hhead⟩ := ih hpair.2 hw0vs hm0 hs0
      refine ⟨w, List.mem_cons_of_mem v hwvs, hwm, hws, hwlen, ?_⟩
      rw [List.map_cons, cat_altList_runs, List.flatMap_cons]
      have hnil : ((Rx.lit v).runs s p).flatMap
          (fun q => (suf.runs s q.1).map (fun r2 => (r2.1, q.2 ++ r2.2))) = [] := by
        by_cases hmv : matchLit v s p = true
        · have hsv : suf.runs s (p + v.length) = [] := by
            by_contra hne
            exact hv ⟨hmv, hne⟩
          simp [Rx.runs, hmv, hsv]
        · simp [Rx.runs, hmv]
      rw [hnil, List.nil_append, ← cat_altList_runs]
      exact hhead

theorem wordsRx_head {pre suf : Rx} (hpre : assertionLike pre)
    (hsuf : assertionLike suf) {ws : List (List Char)} {s : Input} {p : Nat}
    {w0 : List Char} (hw0 : w0 ∈ ws) (hhit : wordHit pre suf s p w0) :
    ∃ w, w ∈ ws ∧ matchLit w s p = true ∧ suf.runs s (p + w.length) ≠ [] ∧
      w0.length ≤ w.length ∧
      firstMatch (wordsRx ws pre suf) s p = some (p + w.length, []) := by
  obtain ⟨hp, hm, hs⟩ := hhit
  obtain ⟨w, hwmem, hwm, hws, hwlen, hhead⟩ :=
    scan_head hsuf (pairwise_sortLenDesc ws) (mem_sortLenDesc.mpr hw0) hm hs
  refine ⟨w, mem_sortLenDesc.mp hwmem, hwm, hws, hwlen, ?_⟩
  unfold firstMatch wordsRx
  rcases hpre s p with hpe | hpe
  · exact absurd hpe hp
  · have : (Rx.cat pre (Rx.cat (altList ((sortLenDesc ws).map .lit)) suf)).runs s p =
        (Rx.cat (altList ((sortLenDesc ws).map .lit)) suf).runs s p := by
      show ((pre.runs s p).flatMap _) = _
      rw [hpe]
      simp
    rw [this]
    exact hhead

/-! ## The `bygroups` pattern of the `'relations'` state -/

theorem mem_cat_runs {a b : Rx} {s : Input} {p q : Nat} {c : Caps} :
    (q, c) ∈ (Rx.cat a b).runs s p ↔
      ∃ q1 c1 q2 c2, (q1, c1) ∈ a.runs s p ∧ (q2, c2) ∈ b.runs s q1 ∧
        q = q2 ∧ c = c1 ++ c2 := by
  simp only [Rx.runs, List.mem_flatMap, List.mem_map, Prod.mk.injEq]
  constructor
  · rintro ⟨x, hx, r, hr, hq, hc⟩
    exact ⟨x.1, x.2, r.1, r.2, by simpa using hx, by simpa using hr, hq.symm, hc.symm⟩
  · rintro ⟨q1, c1, q2, c2, h1, h2, hq, hc⟩
    exact ⟨(q1, c1), h1, (q2, c2), h2, hq.symm, hc.symm⟩

theorem mem_grp_runs {n : Nat} {a : Rx} {s : Input} {p q : Nat} {c : Caps} :
    (q, c) ∈ (Rx.grp n a).runs s p ↔
      ∃ c1, (q, c1) ∈ a.runs s p ∧ c = (n, p, q) :: c1 := by
  simp only [Rx.runs, List.mem_map, Prod.mk.injEq]
  constructor
  · rintro ⟨x, hx, hq, hc⟩
    subst hq
    exact ⟨x.2, by simpa using hx, hc.symm⟩
  · rintro ⟨c1, h1, rfl⟩
    exact ⟨(q, c1), h1, rfl, rfl⟩

theorem relPat_caps {s : Input} {p q : Nat} {c : Caps}
    (h : (q, c) ∈ relPat.runs s p) :
    ∃ a b, c = [(1, p, a), (2, a, b), (3, b, q)] ∧ p < a ∧ a ≤ b ∧ b < q := by
  have hrel : relPat = .cat (.grp 1 relG1) (.cat (.grp 2 relG2) (.grp 3 relG3)) := rfl
  rw [hrel] at h
  obtain ⟨a1, cg1, q2, c2, h1, h2, hq, hc⟩ := mem_cat_runs.mp h
  obtain ⟨c1, hg1, hcg1⟩ := mem_grp_runs.mp h1
  obtain ⟨b1, cg2, q3, c3, h3, h4, hq2, hc2e⟩ := mem_cat_runs.mp h2
  obtain ⟨c2a, hg2, hcg2⟩ := mem_grp_runs.mp h3
  obtain ⟨c3a, hg3, hcg3⟩ := mem_grp_runs.mp h4
  have hc1 : c1 = [] := Rx.runs_caps relG1 (by decide) hg1
  have hc2 : c2a = [] := Rx.runs_caps relG2 (by decide) hg2
  have hc3 : c3a = [] := Rx.runs_caps relG3 (by decide) hg3
  have hpa : p < a1 := Rx.runs_consumes relG1 (by decide) hg1
  have hab : a1 ≤ b1 := Rx.runs_mono relG2 hg2
  have hbq : b1 < q3 := Rx.runs_consumes relG3 (by decide) hg3
  refine ⟨a1, b1, ?_, hpa, hab, by omega⟩
  subst hq hq2
  simp [hc, hcg1, hc2e, hcg2, hcg3, hc1, hc2, hc3]

theorem relPat_groupSpans {p a b q : Nat} :
    groupSpan [(1, p, a), (2, a, b), (3, b, q)] 1 = some (p, a) ∧
    groupSpan [(1, p, a), (2, a, b), (3, b, q)] 2 = some (a, b) ∧
    groupSpan [(1, p, a), (2, a, b), (3, b, q)] 3 = some (b, q) := by
  refine ⟨rfl, rfl, rfl⟩

/-! ## Chains of abutting token spans -/

theorem chainFrom_le : ∀ {toks : List Tok} {a b : Nat}, chainFrom a b toks → a ≤ b := by
  intro toks
  induction toks with
  | nil => intro a b h; exact Nat.le_of_eq h
  | cons t ts ih =>
    intro a b h
    obtain ⟨_, hlen, hrest⟩ := h
    have := ih hrest
    omega

theorem chainFrom_append : ∀ {A B : List Tok} {a m b : Nat},
    chainFrom a m A → chainFrom m b B → chainFrom a b (A ++ B) := by
  intro A
  induction A with
  | nil =>
    intro B a m b hA hB
    have : a = m := hA
    rw [List.nil_append, this]
    exact hB
  | cons t ts ih =>
    intro B a m b hA hB
    obtain ⟨hs, hlen, hrest⟩ := hA
    exact ⟨hs, hlen, ih hrest hB⟩

theorem chainFrom_shift : ∀ {toks : List Tok} {a b d : Nat}, chainFrom a b toks →
    chainFrom (a + d) (b + d) (toks.map (fun t => ⟨t.start + d, t.len, t.kind⟩)) := by
  intro toks
  induction toks with
  | nil => intro a b d h; simp only [List.map_nil]; exact congrArg (· + d) h
  | cons t ts ih =>
    intro a b d h
    obtain ⟨hs, hlen, hrest⟩ := h
    refine ⟨by simp [hs], hlen, ?_⟩
    have := @ih (a + t.len) b d hrest
    simpa [Nat.add_right_comm] using this

theorem chainFrom_spanConcat {s : Input} : ∀ {toks : List Tok} {a b : Nat},
    chainFrom a b toks → b ≤ s.length →
    spanConcat s toks = (s.drop a).take (b - a) := by
  intro toks
  induction toks with
  | nil =>
    intro a b h _
    have : a = b := h
    simp [spanConcat, this]
  | cons t ts ih =>
    intro a b h hb
    obtain ⟨hs, hlen, hrest⟩ := h
    have hend : a + t.len ≤ b := chainFrom_le hrest
    simp only [spanConcat, List.flatMap_cons]
    have ihr := ih hrest hb
    simp only [spanConcat] at ihr
    rw [ihr, spanText, hs]
    have hsplit : b - a = t.len + (b - (a + t.len)) := by omega
    rw [hsplit, List.take_add, List.drop_drop]

/-! ## The resolved GSQL table -/

theorem gsqlStates_root : gsqlStates "root" =
    [commentRule1, commentRule2, keywordsRule, clausesRule, accumsRule,
     relationsRule1, relationsRule2, relationsRule3, functionsRule,
     stringsRule1, stringsRule2, whitespaceRule, barewordsRule1, barewordsRule2,
     operatorsRule1, operatorsRule2] := rfl

theorem mem_gsqlStates_sub : ∀ (n : String) (r : LexRule),
    r ∈ gsqlStates n → r ∈ gsqlStates "root" := by
  intro n r h
  by_cases h1 : n = "root"
  · rw [h1] at h; exact h
  by_cases h2 : n = "comment"
  · rw [h2] at h
    have : gsqlStates "comment" = [commentRule1, commentRule2] := rfl
    rw [this] at h
    rw [gsqlStates_root]
    rcases List.mem_cons.mp h with rfl | h
    · simp
    rcases List.mem_cons.mp h with rfl | h
    · simp
    simp at h
  by_cases h3 : n = "keywords"
  · rw [h3] at h
    have : gsqlStates "keywords" = [keywordsRule] := rfl
    rw [this] at h
    rw [gsqlStates_root]
    rcases List.mem_cons.mp h with rfl | h
    · simp
    simp at h
  by_cases h4 : n = "clauses"
  · rw [h4] at h
    have : gsqlStates "clauses" = [clausesRule] := rfl
    rw [this] at h
    rw [gsqlStates_root]
    rcases List.mem_cons.mp h with rfl | h
    · simp
    simp at h
  by_cases h5 : n = "accums"
  · rw [h5] at h
    have : gsqlStates "accums" = [accumsRule] := rfl
    rw [this] at h
    rw [gsqlStates_root]
    rcases List.mem_cons.mp h with rfl | h
    · simp
    simp at h
  by_cases h6 : n = "relations"
  · rw [h6] at h
    have : gsqlStates "relations" = [relationsRule1, relationsRule2, relationsRule3] := rfl
    rw [this] at h
    rw [gsqlStates_root]
    rcases List.mem_cons.mp h with rfl | h
    · simp
    rcases List.mem_cons.mp h with rfl | h
    · simp
    rcases List.mem_cons.mp h with rfl | h
    · simp
    simp at h
  by_cases h7 : n = "functions"
  · rw [h7] at h
    have : gsqlStates "functions" = [functionsRule] := rfl
    rw [this] at h
    rw [gsqlStates_root]
    rcases List.mem_cons.mp h with rfl | h
    · simp
    simp at h
  by_cases h8 : n = "strings"
  · rw [h8] at h
    have : gsqlStates "strings" = [stringsRule1, stringsRule2] := rfl
    rw [this] at h
    rw [gsqlStates_root]
    rcases List.mem_cons.mp h with rfl | h
    · simp
    rcases List.mem_cons.mp h with rfl | h
    · simp
    simp at h
  by_cases h9 : n = "whitespace"
  · rw [h9] at h
    have : gsqlStates "whitespace" = [whitespaceRule] := rfl
    rw [this] at h
    rw [gsqlStates_root]
    rcases List.mem_cons.mp h with rfl | h
    · simp
    simp at h
  by_cases h10 : n = "barewords"
  · rw [h10] at h
    have : gsqlStates "barewords" = [barewordsRule1, barewordsRule2] := rfl
    rw [this] at h
    rw [gsqlStates_root]
    rcases List.mem_cons.mp h with rfl | h
    · simp
    rcases List.mem_cons.mp h with rfl | h
    · simp
    simp at h
  by_cases h11 : n = "operators"
  · rw [h11] at h
    have : gsqlStates "operators" = [operatorsRule1, operatorsRule2] := rfl
    rw [this] at h
    rw [gsqlStates_root]
    rcases List.mem_cons.mp h with rfl | h
    · simp
    rcases List.mem_cons.mp h with rfl | h
    · simp
    simp at h
  · exfalso
    have hfind : List.find? (fun e => e.1 == n) gsqlTable = none := by
      rw [List.find?_eq_none]
      intro x hx
      simp only [gsqlTable, List.mem_cons, List.not_mem_nil, or_false] at hx
      rcases hx with rfl | rfl | rfl | rfl | rfl | rfl | rfl | rfl | rfl | rfl | rfl <;>
        intro hxx <;> rw [beq_iff_eq] at hxx <;>
        first
        | exact h1 hxx.symm
        | exact h2 hxx.symm
        | exact h3 hxx.symm
        | exact h4 hxx.symm
        | exact h5 hxx.symm
        | exact h6 hxx.symm
        | exact h7 hxx.symm
        | exact h8 hxx.symm
        | exact h9 hxx.symm
        | exact h10 hxx.symm
        | exact h11 hxx.symm
    have hempty : gsqlStates n = [] := by
      unfold gsqlStates resolveState lookupState
      rw [hfind]
      rfl
    rw [hempty] at h
    simp at h

theorem gsql_rule_shape : ∀ (n : String) (r : LexRule), r ∈ gsqlStates n →
    (∃ k, r.action = Action.token k) ∨
      (r.pattern = relPat ∧
        r.action = Action.byGroups
          [GroupItem.kind TokKind.operator, GroupItem.useThis,
           GroupItem.kind TokKind.operator]) := by
  intro n r h
  have h2 := mem_gsqlStates_sub n r h
  rw [gsqlStates_root] at h2
  rcases List.mem_cons.mp h2 with rfl | h2
  · exact Or.inl ⟨_, rfl⟩
  rcases List.mem_cons.mp h2 with rfl | h2
  · exact Or.inl ⟨_, rfl⟩
  rcases List.mem_cons.mp h2 with rfl | h2
  · exact Or.inl ⟨_, rfl⟩
  rcases List.mem_cons.mp h2 with rfl | h2
  · exact Or.inl ⟨_, rfl⟩
  rcases List.mem_cons.mp h2 with rfl | h2
  · exact Or.inl ⟨_, rfl⟩
  rcases List.mem_cons.mp h2 with rfl | h2
  · exact Or.inr ⟨rfl, rfl⟩
  rcases List.mem_cons.mp h2 with rfl | h2
  · exact Or.inl ⟨_, rfl⟩
  rcases List.mem_cons.mp h2 with rfl | h2
  · exact Or.inl ⟨_, rfl⟩
  rcases List.mem_cons.mp h2 with rfl | h2
  · exact Or.inl ⟨_, rfl⟩
  rcases List.mem_cons.mp h2 with rfl | h2
  · exact Or.inl ⟨_, rfl⟩
  rcases List.mem_cons.mp h2 with rfl | h2
  · exact Or.inl ⟨_, rfl⟩
  rcases List.mem_cons.mp h2 with rfl | h2
  · exact Or.inl ⟨_, rfl⟩
  rcases List.mem_cons.mp h2 with rfl | h2
  · exact Or.inl ⟨_, rfl⟩
  rcases List.mem_cons.mp h2 with rfl | h2
  · exact Or.inl ⟨_, rfl⟩
  rcases List.mem_cons.mp h2 with rfl | h2
  · exact Or.inl ⟨_, rfl⟩
  rcases List.mem_cons.mp h2 with rfl | h2
  · exact Or.inl ⟨_, rfl⟩
  simp at h2

theorem gsql_rule_consumes : ∀ (n : String) (r : LexRule), r ∈ gsqlStates n →
    consumesOne r.pattern = true := by
  intro n r h
  have h2 := mem_gsqlStates_sub n r h
  rw [gsqlStates_root] at h2
  rcases List.mem_cons.mp h2 with rfl | h2
  · decide
  rcases List.mem_cons.mp h2 with rfl | h2
  · decide
  rcases List.mem_cons.mp h2 with rfl | h2
  · decide
  rcases List.mem_cons.mp h2 with rfl | h2
  · decide
  rcases List.mem_cons.mp h2 with rfl | h2
  · decide
  rcases List.mem_cons.mp h2 with rfl | h2
  · decide
  rcases List.mem_cons.mp h2 with rfl | h2
  · decide
  rcases List.mem_cons.mp h2 with rfl | h2
  · decide
  rcases List.mem_cons.mp h2 with rfl | h2
  · decide
  rcases List.mem_cons.mp h2 with rfl | h2
  · decide
  rcases List.mem_cons.mp h2 with rfl | h2
  · decide
  rcases List.mem_cons.mp h2 with rfl | h2
  · decide
  rcases List.mem_cons.mp h2 with rfl | h2
  · decide
  rcases List.mem_cons.mp h2 with rfl | h2
  · decide
  rcases List.mem_cons.mp h2 with rfl | h2
  · decide
  rcases List.mem_cons.mp h2 with rfl | h2
  · decide
  simp at h2

/-! ## The engine: soundness of rule search, emission, coverage -/

theorem findMatch_sound : ∀ {rules : List LexRule} {s : Input} {p : Nat}
    {r : LexRule} {q : Nat} {caps : Caps},
    findMatch rules s p = some (r, q, caps) →
    r ∈ rules ∧ (q, caps) ∈ r.pattern.runs s p := by
  intro rules
  induction rules with
  | nil => intro s p r q caps h; simp [findMatch] at h
  | cons r0 rest ih =>
    intro s p r q caps h
    rw [findMatch] at h
    cases hh : (r0.pattern.runs s p).head? with
    | some x =>
      rw [hh] at h
      have hx : x ∈ r0.pattern.runs s p := by
        cases hl : r0.pattern.runs s p with
        | nil => rw [hl] at hh; simp at hh
        | cons y ys =>
          rw [hl] at hh
          simp only [List.head?_cons, Option.some.injEq] at hh
          rw [← hh]
          exact List.mem_cons_self y ys
      simp only [Option.some.injEq] at h
      obtain ⟨rfl, rfl, rfl⟩ : r0 = r ∧ x.1 = q ∧ x.2 = caps := by
        have := Prod.mk.injEq .. ▸ h
        refine ⟨congrArg Prod.fst h, ?_, ?_⟩
        · exact congrArg (fun z => z.2.1) h
        · exact congrArg (fun z => z.2.2) h
      exact ⟨List.mem_cons_self _ _, by simpa using hx⟩
    | none =>
      rw [hh] at h
      obtain ⟨hmem, hruns⟩ := ih h
      exact ⟨List.mem_cons_of_mem r0 hmem, hruns⟩

theorem emitWith_token (deleg : Input → List Tok) (s : Input) (p q : Nat)
    (caps : Caps) (k : TokKind) :
    emitWith deleg s p q caps (Action.token k) = [⟨p, q - p, k⟩] := rfl

theorem emitWith_byGroups (deleg : Input → List Tok) (s : Input) (p q : Nat)
    (caps : Caps) (items : List GroupItem) :
    emitWith deleg s p q caps (Action.byGroups items) = emitItems deleg s caps 1 items := rfl

theorem emit_chain {f : Nat} {s : Input} {p q : Nat} {caps : Caps} {r : LexRule}
    (hshape : (∃ k, r.action = Action.token k) ∨
      (r.pattern = relPat ∧
        r.action = Action.byGroups
          [GroupItem.kind TokKind.operator, GroupItem.useThis,
           GroupItem.kind TokKind.operator]))
    (hmem : (q, caps) ∈ r.pattern.runs s p)
    (hpq : p < q) (hq : q ≤ s.length) (hf : s.length - p ≤ f)
    (ihdel : ∀ (s2 : Input) (p2 : Nat) (st2 : List String), p2 ≤ s2.length →
      s2.length - p2 < f → chainFrom p2 s2.length (run gsqlStates f s2 p2 st2)) :
    chainFrom p q
      (emitWith (fun inp => run gsqlStates f inp 0 ["root"]) s p q caps r.action) := by
  rcases hshape with ⟨k, hk⟩ | ⟨hpat, hact⟩
  · rw [hk, emitWith_token]
    exact ⟨rfl, by show 0 < q - p; omega, by show p + (q - p) = q; omega⟩
  · rw [hact, emitWith_byGroups]
    rw [hpat] at hmem
    obtain ⟨a, b, hcaps, hpa, hab, hbq⟩ := relPat_caps hmem
    subst hcaps
    simp only [emitItems]
    have hg1 : groupSpan [(1, p, a), (2, a, b), (3, b, q)] 1 = some (p, a) := rfl
    have hg2 : groupSpan [(1, p, a), (2, a, b), (3, b, q)] 2 = some (a, b) := rfl
    have hg3 : groupSpan [(1, p, a), (2, a, b), (3, b, q)] 3 = some (b, q) := rfl
    rw [hg1, hg2, hg3]
    have hsub : ((s.drop a).take (b - a)).length = b - a := by
      rw [List.length_take, List.length_drop]
      omega
    have hdel : chainFrom 0 (b - a)
        (run gsqlStates f ((s.drop a).take (b - a)) 0 ["root"]) := by
      have h0 := ihdel ((s.drop a).take (b - a)) 0 ["root"] (Nat.zero_le _)
        (by rw [hsub]; omega)
      rwa [hsub] at h0
    have hmid0 := @chainFrom_shift _ 0 (b - a) a hdel
    rw [Nat.zero_add, Nat.sub_add_cancel hab] at hmid0
    refine @chainFrom_append _ _ p a q ⟨rfl, by show 0 < a - p; omega, ?_⟩ ?_
    · show p + (a - p) = a
      omega
    · refine @chainFrom_append _ _ a b q hmid0 ?_
      rw [List.append_nil]
      exact ⟨rfl, by show 0 < q - b; omega, by show b + (q - b) = q; omega⟩

theorem run_stop {states : String → List LexRule} {f : Nat} {s : Input} {p : Nat}
    {st : List String} (h : ¬ p < s.length) : run states f s p st = [] := by
  cases f with
  | zero => rfl
  | succ f =>
    simp only [run]
    rw [if_neg h]

theorem run_succ_none {states : String → List LexRule} (f : Nat) {s : Input} {p : Nat}
    {st : List String} (hps : p < s.length)
    (heq : findMatch (states (st.headD "root")) s p = none) :
    run states (f + 1) s p st = ⟨p, 1, .error⟩ :: run states f s (p + 1) st := by
  simp only [run]
  rw [if_pos hps, heq]

theorem run_succ_found {states : String → List LexRule} (f : Nat) {s : Input} {p : Nat}
    {st : List String} {r : LexRule} {q : Nat} {caps : Caps} (hps : p < s.length)
    (heq : findMatch (states (st.headD "root")) s p = some (r, q, caps)) :
    run states (f + 1) s p st =
      if p < q then
        emitWith (fun inp => run states f inp 0 ["root"]) s p q caps r.action ++
          run states f s q (applyNext r.next st)
      else ⟨p, 1, .error⟩ :: run states f s (p + 1) st := by
  simp only [run]
  rw [if_pos hps, heq]

theorem run_chain : ∀ (f : Nat) (s : Input) (p : Nat) (st : List String),
    p ≤ s.length → s.length - p < f →
    chainFrom p s.length (run gsqlStates f s p st) := by
  intro f
  induction f with
  | zero => intro s p st hp hf; omega
  | succ f ih =>
    intro s p st hp hf
    by_cases hps : p < s.length
    · cases heq : findMatch (gsqlStates (st.headD "root")) s p with
      | none =>
        rw [run_succ_none f hps heq]
        exact ⟨rfl, Nat.one_pos, ih s (p + 1) st (by omega) (by omega)⟩
      | some m =>
        obtain ⟨r, q, caps⟩ := m
        rw [run_succ_found f hps heq]
        by_cases hpq : p < q
        · rw [if_pos hpq]
          obtain ⟨hrmem, hruns⟩ := findMatch_sound heq
          have hshape := gsql_rule_shape _ r hrmem
          have hqle : q ≤ s.length := Rx.runs_le r.pattern hp hruns
          exact chainFrom_append
            (emit_chain hshape hruns hpq hqle (by omega)
              (fun s2 p2 st2 a b => ih s2 p2 st2 a b))
            (ih s q (applyNext r.next st) (by omega) (by omega))
        · rw [if_neg hpq]
          exact ⟨rfl, Nat.one_pos, ih s (p + 1) st (by omega) (by omega)⟩
    · rw [run_stop hps]
      show p = s.length
      omega

theorem run_congr : ∀ (f1 f2 : Nat) (s : Input) (p : Nat) (st : List String),
    p ≤ s.length → s.length - p < f1 → s.length - p < f2 →
    run gsqlStates f1 s p st = run gsqlStates f2 s p st := by
  intro f1
  induction f1 with
  | zero => intro f2 s p st hp h1 h2; omega
  | succ f1 ih =>
    intro f2 s p st hp h1 h2
    cases f2 with
    | zero => omega
    | succ f2 =>
      by_cases hps : p < s.length
      · cases heq : findMatch (gsqlStates (st.headD "root")) s p with
        | none =>
          rw [run_succ_none f1 hps heq, run_succ_none f2 hps heq]
          congr 1
          exact ih f2 s (p + 1) st (by omega) (by omega) (by omega)
        | some m =>
          obtain ⟨r, q, caps⟩ := m
          rw [run_succ_found f1 hps heq, run_succ_found f2 hps heq]
          by_cases hpq : p < q
          · rw [if_pos hpq, if_pos hpq]
            obtain ⟨hrmem, hruns⟩ := findMatch_sound heq
            have hqle : q ≤ s.length := Rx.runs_le r.pattern hp hruns
            have hcont : run gsqlStates f1 s q (applyNext r.next st) =
                run gsqlStates f2 s q (applyNext r.next st) :=
              ih f2 s q (applyNext r.next st) (by omega) (by omega) (by omega)
            have hemit :
                emitWith (fun inp => run gsqlStates f1 inp 0 ["root"]) s p q caps r.action =
                emitWith (fun inp => run gsqlStates f2 inp 0 ["root"]) s p q caps r.action := by
              rcases gsql_rule_shape _ r hrmem with ⟨k, hk⟩ | ⟨hpat, hact⟩
              · rw [hk, emitWith_token, emitWith_token]
              · rw [hact, emitWith_byGroups, emitWith_byGroups]
                rw [hpat] at hruns
                obtain ⟨a, b, hcaps, hpa, hab, hbq⟩ := relPat_caps hruns
                subst hcaps
                simp only [emitItems]
                have hg1 : groupSpan [(1, p, a), (2, a, b), (3, b, q)] 1 = some (p, a) := rfl
                have hg2 : groupSpan [(1, p, a), (2, a, b), (3, b, q)] 2 = some (a, b) := rfl
                have hg3 : groupSpan [(1, p, a), (2, a, b), (3, b, q)] 3 = some (b, q) := rfl
                rw [hg1, hg2, hg3]
                have hsub : ((s.drop a).take (b - a)).length = b - a := by
                  rw [List.length_take, List.length_drop]
                  omega
                have hrun : run gsqlStates f1 ((s.drop a).take (b - a)) 0 ["root"] =
                    run gsqlStates f2 ((s.drop a).take (b - a)) 0 ["root"] :=
                  ih f2 ((s.drop a).take (b - a)) 0 ["root"] (Nat.zero_le _)
                    (by rw [hsub]; omega) (by rw [hsub]; omega)
                simp only [hrun]
            rw [hemit, hcont]
          · rw [if_neg hpq, if_neg hpq]
            congr 1
            exact ih f2 s (p + 1) st (by omega) (by omega) (by omega)
      · rw [run_stop hps, run_stop hps]

/-! ## Zero-width assertions -/

theorem assertionLike_eps : assertionLike .eps := fun _ _ => Or.inr rfl

theorem assertionLike_bdry : assertionLike .bdry := by
  intro s p
  by_cases h : atBoundary s p = true
  · right
    simp [Rx.runs, h]
  · left
    simp [Rx.runs, h]

theorem assertionLike_lookNotPrev (f : Char → Bool) : assertionLike (.lookNotPrev f) := by
  intro s p
  rcases p with _ | p2
  · right
    exact runs_lookNotPrev_zero f s
  · rw [runs_lookNotPrev_succ]
    cases hg : s.get? p2 with
    | none => right; rfl
    | some d =>
      by_cases hf : f d = true
      · left
        simp [hf]
      · right
        simp [hf]

/-! ## The claims -/

/-- C1: for every input tokenized with the GSQL rule table, the emitted
token spans are in increasing offset order, abut with no gap and no
overlap (including the sub-spans of the `bygroups` action and the
recursively delegated `using(this)` tokens, which are flattened into the
output covering exactly the matched span), and the concatenation of the
spanned text reconstructs the input exactly. -/
theorem gsql_coverage (s : Input) :
    chainFrom 0 s.length (tokenize s) ∧ spanConcat s (tokenize s) = s := by
  have hchain : chainFrom 0 s.length (tokenize s) :=
    run_chain (s.length + 1) s 0 ["root"] (Nat.zero_le _) (by omega)
  refine ⟨hchain, ?_⟩
  have hcat := chainFrom_spanConcat hchain (Nat.le_refl _)
  rw [hcat]
  simp

/-- C2: whenever no rule of the current top state matches at the cursor,
the engine emits exactly one error token of length one covering that
single character, advances the cursor by one, and continues scanning;
the engine function is total, so tokenization never halts or raises on
unmatched input.  (For the GSQL table this happens e.g. on `'&'` in the
root state — see the witness.) -/
theorem gsql_error_recovery (f : Nat) (s : Input) (p : Nat) (st : List String)
    (hps : p < s.length)
    (hnone : findMatch (gsqlStates (st.headD "root")) s p = none) :
    run gsqlStates (f + 1) s p st =
      ⟨p, 1, TokKind.error⟩ :: run gsqlStates f s (p + 1) st :=
  run_succ_none f hps hnone

theorem gsql_error_recovery_witness :
    0 < ("&".data).length ∧
      run gsqlStates 1 "&".data 0 ["root"] =
        ⟨0, 1, TokKind.error⟩ :: run gsqlStates 0 "&".data 1 ["root"] :=
  ⟨by decide, gsql_error_recovery 0 "&".data 0 ["root"] (by decide) (by rfl)⟩

/-- C3: every pattern of the GSQL rule table consumes at least one
character whenever it matches, so every engine step strictly increases
the cursor (the error fallback advances by one as well, per the engine
definition), and tokenization finishes within `length + 1` steps: any
fuel beyond the remaining input length yields the same (complete) token
sequence as `tokenize`, which uses exactly `length + 1` steps of fuel. -/
theorem gsql_termination :
    (∀ (n : String) (r : LexRule) (s : Input) (p q : Nat) (c : Caps),
        r ∈ gsqlStates n → (q, c) ∈ r.pattern.runs s p → p < q) ∧
    (∀ (f : Nat) (s : Input), s.length < f →
        run gsqlStates f s 0 ["root"] = tokenize s) := by
  constructor
  · intro n r s p q c hmem hruns
    exact Rx.runs_consumes r.pattern (gsql_rule_consumes n r hmem) hruns
  · intro f s hf
    exact run_congr f (s.length + 1) s 0 ["root"] (Nat.zero_le _) (by omega) (by omega)

theorem gsql_termination_witness :
    (0 : Nat) < 1 ∧ run gsqlStates 3 "a".data 0 ["root"] = tokenize "a".data :=
  ⟨gsql_termination.1 "whitespace" whitespaceRule " ".data 0 1 []
      (by rw [show gsqlStates "whitespace" = [whitespaceRule] from rfl]
          exact List.mem_cons_self _ _)
      (by decide),
   gsql_termination.2 3 "a".data (by decide)⟩

/-- C4: the engine applies the first matching rule in table order: if
every rule before `r` fails at the cursor and `r` matches, the engine
selects `r` with its match — later rules are never consulted, even if
they would match (possibly longer).  The witness instantiates this on
the resolved GSQL root state at the input `select`, where both the
keywords rule and the later barewords rule match; the earlier keywords
rule wins. -/
theorem first_match_priority (pre post : List LexRule) (r : LexRule) (s : Input)
    (p q : Nat) (c : Caps) (hmatch : (r.pattern.runs s p).head? = some (q, c))
    (hpre : ∀ r2 ∈ pre, r2.pattern.runs s p = []) :
    findMatch (pre ++ r :: post) s p = some (r, q, c) := by
  induction pre with
  | nil =>
    rw [List.nil_append, findMatch, hmatch]
  | cons r0 rest ih =>
    rw [List.cons_append, findMatch, hpre r0 (List.mem_cons_self _ _)]
    exact ih (fun r2 h => hpre r2 (List.mem_cons_of_mem _ h))

theorem first_match_priority_witness :
    ((keywordsRule.pattern.runs "select".data 0).head? = some (6, [])) ∧
      findMatch (gsqlStates "root") "select".data 0 = some (keywordsRule, 6, []) := by
  refine ⟨by decide, ?_⟩
  rw [gsqlStates_root]
  exact first_match_priority [commentRule1, commentRule2]
    [clausesRule, accumsRule, relationsRule1, relationsRule2, relationsRule3,
     functionsRule, stringsRule1, stringsRule2, whitespaceRule, barewordsRule1,
     barewordsRule2, operatorsRule1, operatorsRule2]
    keywordsRule "select".data 0 6 [] (by decide)
    (by
      intro r2 h
      rcases List.mem_cons.mp h with rfl | h
      · decide
      rcases List.mem_cons.mp h with rfl | h
      · decide
      simp at h)

/-- C5: the `words` combinator never lets a shorter vocabulary word
shadow a longer one: whenever two vocabulary words of different lengths
both let the whole rule succeed at an offset (prefix anchor, literal,
and suffix anchor all match), the built pattern consumes a word at least
as long as the longer of the two (e.g. `INSERT` in full, never just its
leading `IN`). -/
theorem words_no_shadow (ws : List (List Char)) (pre suf : Rx) (s : Input) (p : Nat)
    (w1 w2 : List Char) (hpre : assertionLike pre) (hsuf : assertionLike suf)
    (h1 : w1 ∈ ws) (_h2 : w2 ∈ ws) (_hlen : w2.length < w1.length)
    (hhit1 : wordHit pre suf s p w1) (_hhit2 : wordHit pre suf s p w2) :
    ∃ w, w ∈ ws ∧ w1.length ≤ w.length ∧
      firstMatch (wordsRx ws pre suf) s p = some (p + w.length, []) := by
  obtain ⟨w, hw, _, _, hwlen, hfm⟩ := wordsRx_head hpre hsuf h1 hhit1
  exact ⟨w, hw, hwlen, hfm⟩

set_option maxHeartbeats 2000000 in
theorem words_no_shadow_witness :
    ∃ w, w ∈ kwWords ∧ ("INSERT".data).length ≤ w.length ∧
      firstMatch (wordsRx kwWords .eps .eps) "INSERT".data 0 =
        some (0 + w.length, []) :=
  words_no_shadow kwWords .eps .eps "INSERT".data 0
    "INSERT".data "IN".data assertionLike_eps assertionLike_eps
    (by decide) (by decide) (by decide)
    ⟨by decide, by decide, by decide⟩ ⟨by decide, by decide, by decide⟩

/-- C6: the resolved root state of the GSQL table equals the
concatenation of the resolved rule lists of the ten included states, in
include order — `include` is a build-time splice performed by
`resolveState`, before any tokenization. -/
theorem include_expansion :
    resolveState gsqlTable "root" =
      resolveState gsqlTable "comment" ++ resolveState gsqlTable "keywords" ++
      resolveState gsqlTable "clauses" ++ resolveState gsqlTable "accums" ++
      resolveState gsqlTable "relations" ++ resolveState gsqlTable "functions" ++
      resolveState gsqlTable "strings" ++ resolveState gsqlTable "whitespace" ++
      resolveState gsqlTable "barewords" ++ resolveState gsqlTable "operators" := by
  have h0 : resolveState gsqlTable "root" =
      [commentRule1, commentRule2, keywordsRule, clausesRule, accumsRule,
       relationsRule1, relationsRule2, relationsRule3, functionsRule,
       stringsRule1, stringsRule2, whitespaceRule, barewordsRule1, barewordsRule2,
       operatorsRule1, operatorsRule2] := rfl
  have h1 : resolveState gsqlTable "comment" = [commentRule1, commentRule2] := rfl
  have h2 : resolveState gsqlTable "keywords" = [keywordsRule] := rfl
  have h3 : resolveState gsqlTable "clauses" = [clausesRule] := rfl
  have h4 : resolveState gsqlTable "accums" = [accumsRule] := rfl
  have h5 : resolveState gsqlTable "relations" =
      [relationsRule1, relationsRule2, relationsRule3] := rfl
  have h6 : resolveState gsqlTable "functions" = [functionsRule] := rfl
  have h7 : resolveState gsqlTable "strings" = [stringsRule1, stringsRule2] := rfl
  have h8 : resolveState gsqlTable "whitespace" = [whitespaceRule] := rfl
  have h9 : resolveState gsqlTable "barewords" = [barewordsRule1, barewordsRule2] := rfl
  have h10 : resolveState gsqlTable "operators" = [operatorsRule1, operatorsRule2] := rfl
  rw [h0, h1, h2, h3, h4, h5, h6, h7, h8, h9, h10]
  rfl

/-- C7 counterexample: on the specification's own scenario table and the
input `"ab # x\ncd"`, the engine does NOT produce the spec's claimed
sequence `[(0,2,Name), (2,1,Whitespace), (3,4,Comment), (7,1,Whitespace),
(8,2,Name)]` — that sequence is internally inconsistent (the comment span
absorbs the newline `.` cannot match, and `(8,2)` overruns the 9-character
input). -/
theorem scenario_tokens_ne_spec :
    tokenizeScen "ab # x\ncd".data ≠
      [⟨0, 2, TokKind.name⟩, ⟨2, 1, TokKind.whitespace⟩, ⟨3, 4, TokKind.comment⟩,
       ⟨7, 1, TokKind.whitespace⟩, ⟨8, 2, TokKind.name⟩] := by decide

/-- C7 amended: on the scenario table, `"ab # x\ncd"` tokenizes to
`[(0,2,Name), (2,1,Whitespace), (3,3,Comment), (6,1,Whitespace),
(7,2,Name)]`: the `#.*` comment stops before the newline, which is then
consumed by `\s+`. -/
theorem scenario_tokens :
    tokenizeScen "ab # x\ncd".data =
      [⟨0, 2, TokKind.name⟩, ⟨2, 1, TokKind.whitespace⟩, ⟨3, 3, TokKind.comment⟩,
       ⟨6, 1, TokKind.whitespace⟩, ⟨7, 2, TokKind.name⟩] := by decide

/-- C8 counterexample: a rule built from `words(["IF","IN"])` WITHOUT any
suffix anchor DOES match only the leading `IN` of `INSERT` (consuming
exactly 2 characters), contradicting the claim that without an anchor it
does not terminate early inside the longer identifier. -/
theorem words_if_in_counterexample :
    firstMatch (wordsRx ["IF".data, "IN".data] .eps .eps) "INSERT".data 0 =
      some (2, []) := by decide

/-- C8 amended: without a suffix anchor, `words(["IF","IN"])` matches the
leading `IN` of `INSERT` (2 characters); it is WITH the boundary anchor
`\b` that the rule refuses to match inside the longer identifier. -/
theorem words_if_in_amended :
    firstMatch (wordsRx ["IF".data, "IN".data] .eps .eps) "INSERT".data 0 =
        some (2, []) ∧
      firstMatch (wordsRx ["IF".data, "IN".data] .eps .bdry) "INSERT".data 0 =
        none := by decide

set_option maxHeartbeats 2000000 in
/-- C9: because the `'functions'` words rule has no suffix anchor (unlike
`'keywords'`, whose `\b` fails inside `counter`), the vocabulary word
`count` matches as a proper prefix of the longer identifier: `counter`
tokenizes to a `Name.Function` token for `count` (offset 0, length 5)
followed by a `Name` token for `er` (offset 5, length 2). -/
theorem counter_split :
    tokenize "counter".data =
      [⟨0, 5, TokKind.nameFunction⟩, ⟨5, 2, TokKind.name⟩] := by decide

/-! ## Keywords versus clauses (C10) -/

theorem pyWordN_lowN (n : Nat) : pyWordN (lowN n) = pyWordN n := by
  unfold pyWordN lowN
  split
  · next h =>
    rw [Bool.eq_iff_iff]
    simp only [Bool.or_eq_true, Bool.and_eq_true, decide_eq_true_eq, beq_iff_eq]
    omega
  · rfl

theorem pyWord_ci {a b : Char} (h : ciEqChar a b = true) : pyWord a = pyWord b := by
  unfold ciEqChar at h
  rw [beq_iff_eq] at h
  unfold pyWord
  rw [← pyWordN_lowN a.toNat, ← pyWordN_lowN b.toNat, h]

theorem upper_ci_letter {c0 c : Char} (hl : 65 ≤ c0.toNat ∧ c0.toNat ≤ 90)
    (hci : ciEqChar c0 c = true) :
    (c == '#') = false ∧ ciEqChar '/' c = false ∧ pyWord c = true := by
  unfold ciEqChar at hci
  rw [beq_iff_eq] at hci
  have hlow : lowN c0.toNat = c0.toNat + 32 := by
    unfold lowN
    rw [if_pos hl]
  refine ⟨?_, ?_, ?_⟩
  · rw [beq_eq_false_iff_ne]
    intro hc
    subst hc
    rw [hlow] at hci
    have : ('#').toNat = 35 := by decide
    rw [this] at hci
    unfold lowN at hci
    simp only [show ¬(65 ≤ 35 ∧ 35 ≤ 90) from by omega, if_false] at hci
    omega
  · unfold ciEqChar
    rw [beq_eq_false_iff_ne]
    intro hc
    have h47 : lowN ('/').toNat = 47 := by decide
    rw [h47, ← hci, hlow] at hc
    omega
  · unfold pyWord
    rw [← pyWordN_lowN c.toNat, ← hci, hlow]
    simp only [pyWordN, Bool.or_eq_true, Bool.and_eq_true, decide_eq_true_eq, beq_iff_eq]
    omega

theorem matchLit_getChar : ∀ {w : List Char} {s : Input} {p : Nat},
    matchLit w s p = true → ∀ (i : Nat) (c0 : Char), w.get? i = some c0 →
    ∃ c, s.get? (p + i) = some c ∧ ciEqChar c0 c = true := by
  intro w
  induction w with
  | nil => intro s p _ i c0 h0; simp at h0
  | cons a as ih =>
    intro s p h i c0 h0
    simp only [matchLit] at h
    cases hg : s.get? p with
    | none => rw [hg] at h; exact absurd h (by simp)
    | some d =>
      rw [hg] at h
      have h1 := Bool.and_elim_left h
      have h2 := Bool.and_elim_right h
      cases i with
      | zero =>
        simp only [List.get?] at h0
        rw [Option.some.injEq] at h0
        subst h0
        exact ⟨d, by simpa using hg, h1⟩
      | succ i =>
        simp only [List.get?] at h0
        obtain ⟨c, hc, hcc⟩ := ih h2 i c0 h0
        refine ⟨c, ?_, hcc⟩
        rw [show p + (i + 1) = p + 1 + i from by omega]
        exact hc

theorem cat_pred_fail {f : Char → Bool} {rest : Rx} {s : Input} {p : Nat}
    (h : ∀ c, s.get? p = some c → f c = false) :
    (Rx.cat (.pred f) rest).runs s p = [] := by
  have hp : (Rx.pred f).runs s p = [] := by
    rw [show (Rx.pred f).runs s p =
        (match s.get? p with
         | some c => if f c then [(p + 1, [])] else []
         | none => []) from rfl]
    cases hg : s.get? p with
    | none => rfl
    | some c =>
      show (if f c = true then [(p + 1, ([] : Caps))] else []) = []
      rw [h c hg]
      simp
  rw [show (Rx.cat (.pred f) rest).runs s p =
      ((Rx.pred f).runs s p).flatMap
        (fun q => (rest.runs s q.1).map (fun r => (r.1, q.2 ++ r.2))) from rfl, hp]
  rfl

theorem cat_lit_fail {w : List Char} {rest : Rx} {s : Input} {p : Nat}
    (h : matchLit w s p = false) :
    (Rx.cat (.lit w) rest).runs s p = [] := by
  simp only [Rx.runs, h]
  simp

theorem six_sub_kw : ∀ u ∈ sixClauseWords, u ∈ kwWords := by decide

theorem six_len : ∀ u ∈ sixClauseWords, u.length = 5 ∨ u.length = 6 := by decide

theorem six_upper : ∀ u ∈ sixClauseWords, ∀ c0 ∈ u, 65 ≤ c0.toNat ∧ c0.toNat ≤ 90 := by
  decide

set_option maxHeartbeats 2000000 in
theorem kw_word_at_56 : ∀ v ∈ kwWords,
    ((v.get? 5).all pyWord && (v.get? 6).all pyWord) = true := by decide

/-- C10: at any cursor position in the root state that is not preceded by
`'.'` and holds one of `accum`/`having`/`limit`/`order`/`sample`/`where`
(in any letter case, per `re.IGNORECASE`) followed by a non-word
character or the end of input, the engine emits a `Token.Keyword` token
for it via the `'keywords'` rule — the later `'clauses'` rule's
`Name.Builtin` classification is never reached, because the root state
splices `'keywords'` before `'clauses'` and the first match wins. -/
theorem keywords_beat_clauses (f : Nat) (s : Input) (p : Nat) (w : List Char)
    (hw : w ∈ sixClauseWords)
    (hdot : p = 0 ∨ ∀ c, s.get? (p - 1) = some c → ¬ c = '.')
    (hm : matchLit w s p = true)
    (hb : p + w.length = s.length ∨
      ∃ c, s.get? (p + w.length) = some c ∧ pyWord c = false) :
    run gsqlStates (f + 1) s p ["root"] =
      ⟨p, w.length, TokKind.keyword⟩ :: run gsqlStates f s (p + w.length) ["root"] := by
  have hwlen : w.length = 5 ∨ w.length = 6 := six_len w hw
  have hwkw : w ∈ kwWords := six_sub_kw w hw
  have hupper : ∀ c0 ∈ w, 65 ≤ c0.toNat ∧ c0.toNat ≤ 90 := six_upper w hw
  have hlt0 : 0 < w.length := by omega
  obtain ⟨c0, hc0, hci0⟩ := matchLit_getChar hm 0 _ (List.get?_eq_get hlt0)
  rw [Nat.add_zero] at hc0
  have hfacts0 := upper_ci_letter (hupper _ (List.get_mem w 0 hlt0)) hci0
  have hps : p < s.length := (List.get?_eq_some.mp hc0).1
  have hpre_ne : (Rx.lookNotPrev (fun c => c == '.')).runs s p ≠ [] := by
    rcases hdot with rfl | hdot
    · rw [runs_lookNotPrev_zero]
      simp
    · rcases p with _ | p2
      · rw [runs_lookNotPrev_zero]
        simp
      · rw [runs_lookNotPrev_succ]
        cases hg : s.get? p2 with
        | none => simp
        | some c =>
          have hne : (c == '.') = false := by
            rw [beq_eq_false_iff_ne]
            exact hdot c (by simpa using hg)
          simp [hne]
  have hlast : w.length - 1 < w.length := by omega
  obtain ⟨cl, hcl, hcil⟩ := matchLit_getChar hm (w.length - 1) _ (List.get?_eq_get hlast)
  have hlup := upper_ci_letter (hupper _ (List.get_mem w _ hlast)) hcil
  have hbd : atBoundary s (p + w.length) = true := by
    have hleft : wordAt s (p + w.length - 1) = true := by
      unfold wordAt
      rw [show p + w.length - 1 = p + (w.length - 1) from by omega, hcl]
      exact hlup.2.2
    have hright : wordAt s (p + w.length) = false := by
      unfold wordAt
      rcases hb with hb | ⟨c2, hc2, hpw⟩
      · rw [List.get?_eq_none.mpr (by omega)]
      · rw [hc2]
        exact hpw
    unfold atBoundary
    rw [if_neg (by omega : ¬ p + w.length = 0), hleft, hright]
    rfl
  have hsuf_ne : (Rx.bdry).runs s (p + w.length) ≠ [] := by
    simp [Rx.runs, hbd]
  obtain ⟨w2, hw2kw, hw2m, _, hw2len, hfm⟩ :=
    wordsRx_head (assertionLike_lookNotPrev (fun c => c == '.'))
      assertionLike_bdry hwkw ⟨hpre_ne, hm, hsuf_ne⟩
  have hw2eq : w2.length = w.length := by
    by_contra hne
    have hlt : w.length < w2.length := by omega
    obtain ⟨x, hx⟩ : ∃ x, w2.get? w.length = some x := ⟨_, List.get?_eq_get hlt⟩
    obtain ⟨c, hc, hcc⟩ := matchLit_getChar hw2m w.length x hx
    rcases hb with hb | ⟨c2, hc2, hpw⟩
    · rw [List.get?_eq_none.mpr (by omega)] at hc
      exact absurd hc (by simp)
    · rw [hc2, Option.some.injEq] at hc
      subst hc
      have h56 := kw_word_at_56 w2 hw2kw
      have hwt : pyWord x = true := by
        rcases hwlen with h5 | h6
        · rw [h5] at hx
          rw [hx] at h56
          have := Bool.and_elim_left h56
          simpa [Option.all] using this
        · rw [h6] at hx
          rw [hx] at h56
          have := Bool.and_elim_right h56
          simpa [Option.all] using this
      rw [pyWord_ci hcc, hpw] at hwt
      exact absurd hwt (by simp)
  rw [hw2eq] at hfm
  have hcm1 : commentRule1.pattern.runs s p = [] := by
    refine cat_pred_fail ?_
    intro c hcget
    rw [hc0, Option.some.injEq] at hcget
    subst hcget
    exact hfacts0.1
  have hcm2 : commentRule2.pattern.runs s p = [] := by
    refine cat_lit_fail ?_
    rw [show matchLit ['/', '*'] s p =
        (match s.get? p with
         | some d => ciEqChar '/' d && matchLit ['*'] s (p + 1)
         | none => false) from rfl, hc0]
    show (ciEqChar '/' c0 && matchLit ['*'] s (p + 1)) = false
    rw [hfacts0.2.1, Bool.false_and]
  have heq : findMatch (gsqlStates "root") s p = some (keywordsRule, p + w.length, []) := by
    rw [gsqlStates_root]
    refine first_match_priority [commentRule1, commentRule2]
      [clausesRule, accumsRule, relationsRule1, relationsRule2, relationsRule3,
       functionsRule, stringsRule1, stringsRule2, whitespaceRule, barewordsRule1,
       barewordsRule2, operatorsRule1, operatorsRule2]
      keywordsRule s p (p + w.length) [] hfm ?_
    intro r2 h
    rcases List.mem_cons.mp h with rfl | h
    · exact hcm1
    rcases List.mem_cons.mp h with rfl | h
    · exact hcm2
    simp at h
  rw [run_succ_found f hps heq, if_pos (by omega : p < p + w.length)]
  rw [show keywordsRule.action = Action.token TokKind.keyword from rfl, emitWith_token]
  rw [show applyNext keywordsRule.next ["root"] = ["root"] from rfl]
  rw [Nat.add_sub_cancel_left]
  rfl

theorem keywords_beat_clauses_witness :
    ("WHERE".data ∈ sixClauseWords) ∧
      run gsqlStates 1 "where".data 0 ["root"] =
        ⟨0, 5, TokKind.keyword⟩ :: run gsqlStates 0 "where".data 5 ["root"] :=
  ⟨by decide,
   keywords_beat_clauses 0 "where".data 0 "WHERE".data (by decide)
     (Or.inl rfl) (by decide) (Or.inl (by decide))⟩

end GsqlSpec
